import Mathlib

/-!
The qpid client Connector: outbound Writer, inbound reader and close handshake.

A shallow embedding of `src/qpid/client/Connector.cpp`.  State that the C++
code mutates in place is passed explicitly; calls made on the external
collaborators (the AsynchIO reactor, the Bounds counter, the input and shutdown
handlers, the poller and the receiver thread) are kept as records of the calls
received.  A failed `assert`, an out-of-range `frames[i]` and a write past the
end of a buffer are the result `none`.  Sizes, offsets and counts are natural
numbers: the functions modelled add and subtract only quantities bounded by a
buffer's capacity, and `bytesWritten` sums the sizes of queued frames.
-/

namespace Qpid

/-! ## Collaborators declared outside Connector.cpp -/

/-- Modelled from the spec: framing::AMQFrame (qpid/framing/AMQFrame.h is not
among the sources).  A frame is an opaque unit with a computable encoded byte
size and an end-of-group marker; `encoded` is the byte string that
`frame.encode(buffer)` writes and `eof` is what `getEof()` returns. -/
structure AMQFrame where
  encoded : List Nat
  eof : Bool
deriving DecidableEq, Repr

/-- The value of `frame.size()`: the number of bytes `encode` writes. -/
def AMQFrame.size (frame : AMQFrame) : Nat := frame.encoded.length

/-- The value of `frame.getEof()`. -/
def AMQFrame.getEof (frame : AMQFrame) : Bool := frame.eof

/-- Modelled from the spec: AsynchIO::BufferBase (qpid/sys/AsynchIO.h is not
among the sources): a fixed-capacity byte region `bytes` (its length is
`byteCount`) with a window `dataStart`, `dataCount`. -/
structure BufferBase where
  bytes : List Nat
  dataStart : Nat
  dataCount : Nat
deriving DecidableEq, Repr

/-- The capacity of a buffer. -/
def BufferBase.byteCount (b : BufferBase) : Nat := b.bytes.length

/-- The bytes of the window `[dataStart, dataStart + dataCount)`. -/
def BufferBase.window (b : BufferBase) : List Nat :=
  (b.bytes.drop b.dataStart).take b.dataCount

/-- Connector::Buff: `Buff(size)` allocates `size` bytes, window empty. -/
def Buff (size : Nat) : BufferBase :=
  { bytes := List.replicate size 0, dataStart := 0, dataCount := 0 }

/-- Modelled from the spec: framing::Buffer (qpid/framing/Buffer.h is not among
the sources), a cursor over a byte region of `size` bytes; the region itself
is kept by whoever owns the bytes. -/
structure Buffer where
  size : Nat
  position : Nat
deriving DecidableEq, Repr

/-- The value of `Buffer::available()`. -/
def Buffer.available (b : Buffer) : Nat := b.size - b.position

/-- The value of `Buffer::getPosition()`. -/
def Buffer.getPosition (b : Buffer) : Nat := b.position

/-- Modelled from the spec: the reactor (sys::AsynchIO, not among the sources).
`queuedBuffers` is the pool of completed buffers that `getQueuedBuffer` draws
from; the other fields record, in call order, the buffers passed to
`queueWrite`, `unread` and `queueReadBuffer`, and the number of
`notifyPendingWrite` calls. -/
structure AsynchIO where
  queuedBuffers : List BufferBase
  writeQueue : List BufferBase
  pendingWrites : Nat
  unreadBuffers : List BufferBase
  readQueue : List BufferBase
deriving DecidableEq, Repr

/-- A freshly constructed reactor. -/
def newAsynchIO : AsynchIO :=
  { queuedBuffers := [], writeQueue := [], pendingWrites := 0,
    unreadBuffers := [], readQueue := [] }

/-- Modelled from the spec: `aio->getQueuedBuffer()` hands out a buffer of the
completed-write pool if one is available, else null. -/
def getQueuedBuffer (a : AsynchIO) : Option BufferBase × AsynchIO :=
  match a.queuedBuffers with
  | [] => (none, a)
  | b :: rest => (some b, { a with queuedBuffers := rest })

/-- The call `aio->queueWrite(buff)`. -/
def queueWrite (a : AsynchIO) (buff : BufferBase) : AsynchIO :=
  { a with writeQueue := a.writeQueue ++ [buff] }

/-- The call `aio->notifyPendingWrite()`. -/
def notifyPendingWrite (a : AsynchIO) : AsynchIO :=
  { a with pendingWrites := a.pendingWrites + 1 }

/-- The call `aio.unread(buff)`. -/
def unread (a : AsynchIO) (buff : BufferBase) : AsynchIO :=
  { a with unreadBuffers := a.unreadBuffers ++ [buff] }

/-- The call `aio.queueReadBuffer(buff)`. -/
def queueReadBuffer (a : AsynchIO) (buff : BufferBase) : AsynchIO :=
  { a with readQueue := a.readQueue ++ [buff] }

/-- Modelled from the spec: the flow-control counter (Bounds.h is not among the
sources), kept as the list of amounts passed to `reduce`, in call order. -/
structure Bounds where
  reduced : List Nat
deriving DecidableEq, Repr

/-- The call `bounds->reduce(n)`. -/
def Bounds.reduce (b : Bounds) (n : Nat) : Bounds :=
  { reduced := b.reduced ++ [n] }

/-- Bytes `data` stored into `bytes` from offset `pos` on. -/
def putBytes (bytes : List Nat) (pos : Nat) (data : List Nat) : List Nat :=
  bytes.take pos ++ data ++ bytes.drop (pos + data.length)

/-! ## Connector::Writer -/

/-- The members of Connector::Writer.  `aio` is the state of the reactor that
the pointer `aio` refers to once Writer::init has bound it; the pointer itself
is not modelled. -/
structure Writer where
  maxFrameSize : Nat
  aio : AsynchIO
  buffer : Option BufferBase
  lastEof : Nat
  bounds : Option Bounds
  frames : List AMQFrame
  encode : Buffer
  framesEncoded : Nat
deriving DecidableEq, Repr

/-- Writer::Writer(s, b). -/
def Writer.new (s : Nat) (b : Option Bounds) : Writer :=
  { maxFrameSize := s, aio := newAsynchIO, buffer := none, lastEof := 0, bounds := b,
    frames := [], encode := { size := 0, position := 0 }, framesEncoded := 0 }

/-- Writer::newBuffer. -/
def Writer.newBuffer (w : Writer) : Writer :=
  let (got, aio1) := getQueuedBuffer w.aio
  let buffer := match got with
    | some b => b
    | none => Buff w.maxFrameSize
  { w with aio := aio1, buffer := some buffer,
           encode := { size := buffer.byteCount, position := 0 },
           framesEncoded := 0 }

/-- Writer::init(id, a). -/
def Writer.init (w : Writer) (a : AsynchIO) : Writer :=
  Writer.newBuffer { w with aio := a }

/-- Writer::handle(frame). -/
def Writer.handle (w : Writer) (frame : AMQFrame) : Writer :=
  let w1 := { w with frames := w.frames ++ [frame] }
  if frame.getEof then
    { w1 with lastEof := w1.frames.length, aio := notifyPendingWrite w1.aio }
  else w1

/-- Writer::writeOne. -/
def Writer.writeOne (w : Writer) : Option Writer :=
  match w.buffer with
  | none => none
  | some buffer =>
    let queued := { buffer with dataStart := 0, dataCount := w.encode.getPosition }
    some (Writer.newBuffer { w with framesEncoded := 0, aio := queueWrite w.aio queued })

/-- The call `frame.encode(encode)` on the writer's working buffer. -/
def Writer.encodeFrame (w : Writer) (frame : AMQFrame) : Writer :=
  { w with
    buffer := w.buffer.map fun b =>
      { b with bytes := putBytes b.bytes w.encode.position frame.encoded }
    encode := { w.encode with position := w.encode.position + frame.size } }

/-- One iteration of the loop of Writer::write, for the frame `frames[i]`. -/
def Writer.writeFrame (w : Writer) (frame : AMQFrame) : Option Writer :=
  let size := frame.size
  match (if size > w.encode.available then Writer.writeOne w else some w) with
  | none => none
  | some w1 =>
    if size ≤ w1.encode.available then
      let w2 := Writer.encodeFrame w1 frame
      some { w2 with framesEncoded := w2.framesEncoded + 1 }
    else none

/-- The loop `for (i = ...; i < lastEof; ++i)` of Writer::write with `n`
iterations left; the result carries `bytesWritten`. -/
def Writer.writeLoop : Nat → Nat → Nat → Writer → Option (Nat × Writer)
  | 0, _, bytesWritten, w => some (bytesWritten, w)
  | n + 1, i, bytesWritten, w =>
    match w.frames[i]? with
    | none => none
    | some frame =>
      match Writer.writeFrame w frame with
      | none => none
      | some w1 => Writer.writeLoop n (i + 1) (bytesWritten + frame.size) w1

/-- Writer::write. -/
def Writer.write (w : Writer) : Option Writer :=
  match w.buffer with
  | none => none
  | some _ =>
    match Writer.writeLoop w.lastEof 0 0 w with
    | none => none
    | some (bytesWritten, w1) =>
      let w2 := { w1 with frames := w1.frames.drop w1.lastEof, lastEof := 0,
                          bounds := w1.bounds.map fun b => b.reduce bytesWritten }
      if w2.encode.getPosition > 0 then Writer.writeOne w2 else some w2

/-! ## Connector -/

/-- The members of Connector that the modelled functions touch.  `writer.aio`
is the reactor that both `Connector::aio` and `Writer::aio` point to;
`shutdownHandler` is the registered handler, if any, as the number of
`shutdown()` calls it has received; `input` is the list of frames passed to
`received`; `pollerShutdowns` and `receiverJoins` count `poller->shutdown()`
and `receiver.join()`; `receiver` is the id of the dispatch thread. -/
structure Connector where
  maxFrameSize : Nat
  version : List Nat
  initiated : Bool
  closed : Bool
  joined : Bool
  shutdownHandler : Option Nat
  writer : Writer
  input : List AMQFrame
  pollerShutdowns : Nat
  receiver : Nat
  receiverJoins : Nat
deriving DecidableEq, Repr

/-- Connector::Connector(ver, settings, cimpl); `ver` is the encoded
ProtocolInitiation of the version. -/
def Connector.new (ver : List Nat) (maxFrameSize : Nat) (cimpl : Option Bounds) : Connector :=
  { maxFrameSize := maxFrameSize, version := ver, initiated := false, closed := true,
    joined := true, shutdownHandler := none, writer := Writer.new maxFrameSize cimpl,
    input := [], pollerShutdowns := 0, receiver := 0, receiverJoins := 0 }

/-- Connector::connect, when the socket connects. -/
def Connector.connect (c : Connector) : Option Connector :=
  if c.closed then
    some { c with closed := false, writer := Writer.init c.writer newAsynchIO }
  else none

/-- Connector::writeDataBlock(data), `data` given by its encoding. -/
def Connector.writeDataBlock (c : Connector) (data : List Nat) : Option Connector :=
  let buff := Buff c.maxFrameSize
  if data.length ≤ buff.byteCount then
    let buff1 := { buff with bytes := putBytes buff.bytes 0 data, dataCount := data.length }
    some { c with writer := { c.writer with aio := queueWrite c.writer.aio buff1 } }
  else none

/-- Connector::init; `thread` is the id of the dispatch thread it starts. -/
def Connector.init (c : Connector) (thread : Nat) : Option Connector :=
  if c.joined then
    match Connector.writeDataBlock c c.version with
    | none => none
    | some c1 => some { c1 with joined := false, receiver := thread }
  else none

/-- Connector::closeInternal called on thread `current`. -/
def Connector.closeInternal (c : Connector) (current : Nat) : Bool × Connector :=
  let ret := !c.closed
  let c1 := if !c.closed then
      { c with closed := true, pollerShutdowns := c.pollerShutdowns + 1 }
    else c
  let c2 := if !c1.joined && c1.receiver != current then
      { c1 with joined := true, receiverJoins := c1.receiverJoins + 1 }
    else c1
  (ret, c2)

/-- Connector::close. -/
def Connector.close (c : Connector) (current : Nat) : Connector :=
  (Connector.closeInternal c current).2

/-- Connector::setShutdownHandler; a fresh handler has received no call. -/
def Connector.setShutdownHandler (c : Connector) : Connector :=
  { c with shutdownHandler := some 0 }

/-- Connector::send. -/
def Connector.send (c : Connector) (frame : AMQFrame) : Connector :=
  { c with writer := Writer.handle c.writer frame }

/-- Connector::handleClosed. -/
def Connector.handleClosed (c : Connector) (current : Nat) : Connector :=
  let (ret, c1) := Connector.closeInternal c current
  match ret, c1.shutdownHandler with
  | true, some calls => { c1 with shutdownHandler := some (calls + 1) }
  | _, _ => c1

/-- Connector::writebuff. -/
def Connector.writebuff (c : Connector) : Option Connector :=
  (Writer.write c.writer).map fun w => { c with writer := w }

/-- The loop `while (frame.decode(in)) input->received(frame)` of
Connector::readbuff, over the window `data`; `decode` is AMQFrame::decode,
which on success yields the frame and the number of bytes it consumed.  The
loop runs for at most `fuel` calls of `decode`. -/
def Connector.decodeLoop (decode : List Nat → Option (AMQFrame × Nat)) (data : List Nat) :
    Nat → Buffer → List AMQFrame → Option (Buffer × List AMQFrame)
  | 0, _, _ => none
  | fuel + 1, inbuf, input =>
    match decode (data.drop inbuf.position) with
    | none => some (inbuf, input)
    | some (frame, n) =>
      Connector.decodeLoop decode data fuel
        { inbuf with position := inbuf.position + n } (input ++ [frame])

/-- Connector::readbuff(aio, buff).  `initDecode` is ProtocolInitiation::decode
(the bytes it consumes on success) and `decode` is AMQFrame::decode. -/
def Connector.readbuff (initDecode : List Nat → Option Nat)
    (decode : List Nat → Option (AMQFrame × Nat))
    (c : Connector) (buff : BufferBase) : Option Connector :=
  let data := buff.window
  let in0 : Buffer := { size := buff.dataCount, position := 0 }
  let in1 : Buffer :=
    if !c.initiated then
      match initDecode data with
      | some n => { in0 with position := in0.position + n }
      | none => in0
    else in0
  match Connector.decodeLoop decode data (buff.dataCount + 1) in1 c.input with
  | none => none
  | some (in2, input) =>
    let c1 := { c with initiated := true, input := input }
    if in2.available != 0 then
      let buff1 := { buff with dataStart := buff.dataStart + (buff.dataCount - in2.available),
                               dataCount := in2.available }
      some { c1 with writer := { c1.writer with aio := unread c1.writer.aio buff1 } }
    else
      some { c1 with writer := { c1.writer with aio := queueReadBuffer c1.writer.aio buff } }

/-! ## Specification vocabulary -/

/-- The concatenated encodings of a list of frames, in list order. -/
def encodeAll (fs : List AMQFrame) : List Nat := (fs.map AMQFrame.encoded).flatten

/-- The sum of the encoded sizes of a list of frames. -/
def totalSize (fs : List AMQFrame) : Nat := (fs.map AMQFrame.size).sum

/-- A frame of `size` bytes fits every buffer the writer can obtain as a
replacement: a fresh `Buff(maxFrameSize)` or a buffer of the reactor's pool. -/
def Writer.Fits (w : Writer) (size : Nat) : Prop :=
  size ≤ w.maxFrameSize ∧ ∀ b ∈ w.aio.queuedBuffers, size ≤ b.byteCount

instance Writer.decidableFits (w : Writer) (size : Nat) : Decidable (w.Fits size) := by
  unfold Writer.Fits
  infer_instance

/-- The bytes encoded so far into the working buffer. -/
def Writer.pending (w : Writer) : List Nat :=
  match w.buffer with
  | some b => b.bytes.take w.encode.position
  | none => []

/-- The writer holds a working buffer and `encode` is a cursor over it. -/
def Writer.Ready (w : Writer) : Prop :=
  ∃ b, w.buffer = some b ∧ w.encode.size = b.byteCount ∧ w.encode.position ≤ w.encode.size

/-- The loop body of Writer::write run over a list of frames in order. -/
def Writer.writeFrames : List AMQFrame → Writer → Option Writer
  | [], w => some w
  | frame :: rest, w =>
    match Writer.writeFrame w frame with
    | none => none
    | some w1 => Writer.writeFrames rest w1

/-- The buffer that Writer::newBuffer obtains. -/
def Writer.replacement (w : Writer) : BufferBase :=
  (w.aio.queuedBuffers.head?).getD (Buff w.maxFrameSize)

/-- A call made on the writer: `send` reaches Writer::handle, the reactor's
write-readiness callback reaches Writer::write. -/
inductive WriterCall where
  | handle (frame : AMQFrame)
  | write
deriving DecidableEq, Repr

/-- One call on the writer. -/
def Writer.call (w : Writer) : WriterCall → Option Writer
  | .handle frame => some (w.handle frame)
  | .write => w.write

/-- A sequence of calls on the writer, in order. -/
def Writer.run : List WriterCall → Writer → Option Writer
  | [], w => some w
  | c :: cs, w =>
    match w.call c with
    | none => none
    | some w1 => Writer.run cs w1

/-- The frames submitted by the `handle` calls of a sequence, in order. -/
def handled : List WriterCall → List AMQFrame
  | [] => []
  | .handle frame :: cs => frame :: handled cs
  | .write :: cs => handled cs

/-- The number of `write` calls of a sequence. -/
def writes : List WriterCall → Nat
  | [] => 0
  | .handle _ :: cs => writes cs
  | .write :: cs => writes cs + 1

/-- The state between calls: a working buffer is held, nothing is encoded in it
and the flush boundary lies inside the queue. -/
def Writer.Idle (w : Writer) : Prop :=
  w.Ready ∧ w.encode.position = 0 ∧ w.lastEof ≤ w.frames.length

/-- The flush boundary sits right behind the last end-of-group frame of the
queue: no frame from `lastEof` on carries the marker, and the frame before
`lastEof`, if any, does. -/
def Writer.AtLastEof (w : Writer) : Prop :=
  (∀ f ∈ w.frames.drop w.lastEof, f.eof = false) ∧
  (w.lastEof = 0 ∨ ∃ f, w.frames[w.lastEof - 1]? = some f ∧ f.eof = true)

/-- What the loop of Writer::write leaves alone: the frame queue, `lastEof`,
the counter and the reactor's records other than its write queue and pool,
which only shrinks. -/
def Writer.SameQueue (w w' : Writer) : Prop :=
  w'.frames = w.frames ∧ w'.lastEof = w.lastEof ∧ w'.bounds = w.bounds ∧
  w'.maxFrameSize = w.maxFrameSize ∧ w'.aio.pendingWrites = w.aio.pendingWrites ∧
  w'.aio.unreadBuffers = w.aio.unreadBuffers ∧ w'.aio.readQueue = w.aio.readQueue ∧
  ∀ b ∈ w'.aio.queuedBuffers, b ∈ w.aio.queuedBuffers

/-- A writer with 4-byte buffers, an empty working buffer and four queued
frames of which the first three are up to the flush boundary. -/
def splitWriter : Writer :=
  { maxFrameSize := 4, aio := newAsynchIO, buffer := some (Buff 4), lastEof := 3,
    bounds := some { reduced := [] },
    frames := [⟨[1, 2, 3], false⟩, ⟨[4, 5], false⟩, ⟨[6], true⟩, ⟨[7], false⟩],
    encode := { size := 4, position := 0 }, framesEncoded := 0 }

/-- A writer with 4-byte buffers whose working buffer already holds a 3-byte
frame, so that one byte remains. -/
def fullWriter : Writer :=
  { maxFrameSize := 4, aio := newAsynchIO,
    buffer := some { bytes := [1, 2, 3, 0], dataStart := 0, dataCount := 0 }, lastEof := 2,
    bounds := none, frames := [⟨[1, 2, 3], false⟩, ⟨[4, 5], true⟩],
    encode := { size := 4, position := 3 }, framesEncoded := 1 }

/-- The end-to-end scenario on a connector: connect, init (the dispatch thread
gets id `thread`), send(frameA), send(frameB), one write-readiness callback. -/
def Connector.scenario (c : Connector) (thread : Nat) (frameA frameB : AMQFrame) :
    Option Connector :=
  match c.connect with
  | none => none
  | some c1 =>
    match c1.init thread with
    | none => none
    | some c2 => ((c2.send frameA).send frameB).writebuff

/-- The connector after connect and init. -/
def Connector.started (c : Connector) (thread : Nat) : Option Connector :=
  match c.connect with
  | none => none
  | some c1 => c1.init thread

/-- A fresh connector with 16-byte buffers and an 8-byte protocol header. -/
def freshConnector : Connector :=
  Connector.new [65, 77, 81, 80, 1, 1, 0, 10] 16 (some { reduced := [] })

/-- A call that closes the connector, made on thread `current`: `close()`, or
`handleClosed()` as the reactor makes it on an I/O error or a disconnect. -/
inductive CloseCall where
  | close (current : Nat)
  | handleClosed (current : Nat)
deriving DecidableEq, Repr

/-- The thread a closing call is made on. -/
def CloseCall.current : CloseCall → Nat
  | .close t => t
  | .handleClosed t => t

/-- One closing call: the value its closeInternal returns, and the connector
afterwards. -/
def Connector.closeCall (c : Connector) : CloseCall → Bool × Connector
  | .close t => ((c.closeInternal t).1, c.close t)
  | .handleClosed t => ((c.closeInternal t).1, c.handleClosed t)

/-- A sequence of closing calls, in order: the values closeInternal returned
and the connector afterwards. -/
def Connector.closeCalls : List CloseCall → Connector → List Bool × Connector
  | [], c => ([], c)
  | call :: calls, c =>
    let (ret, c1) := c.closeCall call
    let (rets, c2) := Connector.closeCalls calls c1
    (ret :: rets, c2)

/-- A connected connector whose dispatch thread has id 7, with a shutdown
handler registered. -/
def openConnector : Connector :=
  { Connector.new [65, 77, 81, 80, 1, 1, 0, 10] 16 none with
    closed := false, joined := false, receiver := 7, shutdownHandler := some 0 }

/-- Decoding the bytes `x` frame by frame yields the frames `fs`, consuming
`k` bytes in all, and then fails on what is left. -/
inductive Decodes (decode : List Nat → Option (AMQFrame × Nat)) :
    List Nat → List AMQFrame → Nat → Prop where
  | done {x : List Nat} : decode x = none → Decodes decode x [] 0
  | step {x : List Nat} {f : AMQFrame} {n : Nat} {fs : List AMQFrame} {k : Nat} :
      decode x = some (f, n) → Decodes decode (x.drop n) fs k →
      Decodes decode x (f :: fs) (n + k)

/-- What a readbuff call that took `c` to `c'` did with `buff`: it handed it
to `unread` with the window shrunk to the non-empty bytes `rest`, or, `rest`
being empty, handed it to `queueReadBuffer`. -/
def Connector.Leaves (c c' : Connector) (buff : BufferBase) (rest : List Nat) : Prop :=
  (rest ≠ [] ∧ c'.writer.aio.readQueue = c.writer.aio.readQueue ∧
    ∃ ub : BufferBase, c'.writer.aio.unreadBuffers = c.writer.aio.unreadBuffers ++ [ub] ∧
      ub.bytes = buff.bytes ∧ ub.window = rest ∧
      ub.dataStart + ub.dataCount = buff.dataStart + buff.dataCount) ∨
  (rest = [] ∧ c'.writer.aio.unreadBuffers = c.writer.aio.unreadBuffers ∧
    c'.writer.aio.readQueue = c.writer.aio.readQueue ++ [buff])

/-- A decoder of length-delimited frames, for the examples: the first byte of
a frame is its total length, at least 2, and the second its end-of-group
marker. -/
def lengthDecode : List Nat → Option (AMQFrame × Nat)
  | n :: e :: rest =>
    if 2 ≤ n ∧ n - 2 ≤ rest.length then
      some ({ encoded := n :: e :: rest.take (n - 2), eof := e == 1 }, n)
    else none
  | _ => none

/-- A 12-byte read buffer whose window, from offset 2, holds a 3-byte frame, a
2-byte frame and the first 3 bytes of a 4-byte frame. -/
def carryBuffer : BufferBase :=
  { bytes := [7, 7, 3, 0, 9, 2, 1, 4, 0, 5, 0, 0], dataStart := 2, dataCount := 8 }

/-- A read buffer holding a 3-byte frame, a 2-byte frame and the first 2 bytes
of a 4-byte frame. -/
def firstBuffer : BufferBase :=
  { bytes := [3, 0, 9, 2, 1, 4, 0, 0, 0, 0], dataStart := 0, dataCount := 7 }

/-- A read buffer holding the same bytes followed by the last 2 bytes of the
4-byte frame. -/
def wholeBuffer : BufferBase :=
  { bytes := [3, 0, 9, 2, 1, 4, 0, 5, 6, 0], dataStart := 0, dataCount := 9 }

/-! ## Lemmas on the writer -/

theorem encodeAll_nil : encodeAll [] = [] := rfl

theorem encodeAll_cons (f : AMQFrame) (fs : List AMQFrame) :
    encodeAll (f :: fs) = f.encoded ++ encodeAll fs := by
  simp [encodeAll]

theorem encodeAll_append (xs ys : List AMQFrame) :
    encodeAll (xs ++ ys) = encodeAll xs ++ encodeAll ys := by
  simp [encodeAll]

theorem length_encodeAll (fs : List AMQFrame) : (encodeAll fs).length = totalSize fs := by
  induction fs with
  | nil => rfl
  | cons f fs ih => simp [encodeAll_cons, totalSize, AMQFrame.size] at *; omega

theorem totalSize_append (xs ys : List AMQFrame) :
    totalSize (xs ++ ys) = totalSize xs + totalSize ys := by
  simp [totalSize]

theorem putBytes_take (bytes data : List Nat) (pos : Nat) (h : pos ≤ bytes.length) :
    (putBytes bytes pos data).take (pos + data.length) = bytes.take pos ++ data := by
  unfold putBytes
  apply List.take_left'
  simp [List.length_take, Nat.min_eq_left h]

theorem putBytes_length (bytes data : List Nat) (pos : Nat)
    (h : pos + data.length ≤ bytes.length) :
    (putBytes bytes pos data).length = bytes.length := by
  unfold putBytes
  simp [List.length_take, List.length_drop]
  omega

theorem Writer.newBuffer_eq (w : Writer) :
    w.newBuffer =
      { w with aio := { w.aio with queuedBuffers := w.aio.queuedBuffers.tail },
               buffer := some w.replacement,
               encode := { size := w.replacement.byteCount, position := 0 },
               framesEncoded := 0 } := by
  obtain ⟨mfs, ⟨pool, wq, pw, ub, rq⟩, buf, le, bd, fr, enc, fe⟩ := w
  cases pool <;> rfl

theorem Writer.replacement_fits (w : Writer) (size : Nat) (h : w.Fits size) :
    size ≤ w.replacement.byteCount := by
  unfold Writer.replacement
  cases hq : w.aio.queuedBuffers with
  | nil => simpa [Buff, BufferBase.byteCount] using h.1
  | cons b rest => simpa using h.2 b (by simp [hq])

theorem Writer.SameQueue.refl (w : Writer) : w.SameQueue w :=
  ⟨rfl, rfl, rfl, rfl, rfl, rfl, rfl, fun _ h => h⟩

theorem Writer.SameQueue.trans {a b c : Writer} (h1 : a.SameQueue b) (h2 : b.SameQueue c) :
    a.SameQueue c := by
  obtain ⟨a1, a2, a3, a4, a5, a6, a7, a8⟩ := h1
  obtain ⟨b1, b2, b3, b4, b5, b6, b7, b8⟩ := h2
  exact ⟨b1.trans a1, b2.trans a2, b3.trans a3, b4.trans a4, b5.trans a5, b6.trans a6,
    b7.trans a7, fun x hx => a8 x (b8 x hx)⟩

theorem Writer.SameQueue.fits {w w' : Writer} (h : w.SameQueue w') {size : Nat}
    (hfit : w.Fits size) : w'.Fits size := by
  obtain ⟨_, _, _, h4, _, _, _, h8⟩ := h
  exact ⟨h4 ▸ hfit.1, fun b hb => hfit.2 b (h8 b hb)⟩

theorem Writer.writeFrame_room (w : Writer) (frame : AMQFrame)
    (h : frame.size ≤ w.encode.available) :
    w.writeFrame frame =
      some { w.encodeFrame frame with framesEncoded := w.framesEncoded + 1 } := by
  unfold Writer.writeFrame
  have h1 : ¬ frame.size > w.encode.available := by omega
  simp only [h1, if_false, h, if_true]
  rfl

theorem Writer.writeFrame_rotate (w : Writer) (frame : AMQFrame) (b : BufferBase)
    (hb : w.buffer = some b) (h : w.encode.available < frame.size)
    (hrep : frame.size ≤ w.replacement.byteCount) :
    w.writeFrame frame =
      some { (Writer.newBuffer
                { w with framesEncoded := 0,
                         aio := queueWrite w.aio
                           { b with dataStart := 0, dataCount := w.encode.position } }).encodeFrame
              frame with framesEncoded := 1 } := by
  unfold Writer.writeFrame
  simp only [gt_iff_lt, h, if_true, Writer.writeOne, hb, Buffer.getPosition]
  rw [Writer.newBuffer_eq]
  simp only [Writer.replacement, queueWrite, Buffer.available, Nat.sub_zero]
  rw [if_pos (by simpa [Writer.replacement] using hrep)]
  rfl

/-- When an iteration that rotates the buffer gets past its assertion, the
frame fits the replacement buffer. -/
theorem Writer.writeFrame_cap (w : Writer) (frame : AMQFrame) (b : BufferBase)
    (hb : w.buffer = some b) (hsome : (w.writeFrame frame).isSome = true)
    (h : w.encode.available < frame.size) : frame.size ≤ w.replacement.byteCount := by
  by_contra hrep
  unfold Writer.writeFrame at hsome
  simp only [gt_iff_lt, h, if_true, Writer.writeOne, hb, Buffer.getPosition] at hsome
  rw [Writer.newBuffer_eq] at hsome
  simp only [Writer.replacement, queueWrite, Buffer.available, Nat.sub_zero] at hsome
  rw [if_neg (by simpa [Writer.replacement] using hrep)] at hsome
  simp at hsome

/-- One loop iteration, started with the frames of `cur` encoded in the working
buffer: either the frame is added behind them, or the working buffer is queued
holding exactly `cur` and the frame starts the replacement. -/
theorem Writer.writeFrame_step (w : Writer) (frame : AMQFrame) (cur : List AMQFrame)
    (hready : w.Ready) (hpend : w.pending = encodeAll cur)
    (hcap : w.encode.available < frame.size → frame.size ≤ w.replacement.byteCount) :
    ∃ w', w.writeFrame frame = some w' ∧ w'.Ready ∧ w.SameQueue w' ∧
      frame.size ≤ w'.encode.position ∧
      ((w'.aio.writeQueue = w.aio.writeQueue ∧ w'.pending = encodeAll (cur ++ [frame])) ∨
       (∃ q, w'.aio.writeQueue = w.aio.writeQueue ++ [q] ∧ q.dataStart = 0 ∧
          q.dataCount ≤ q.byteCount ∧ q.window = encodeAll cur ∧
          w'.pending = encodeAll [frame])) := by
  obtain ⟨b, hb, hsize, hpos⟩ := hready
  by_cases h : frame.size ≤ w.encode.available
  · refine ⟨_, w.writeFrame_room frame h, ?_, ?_, ?_, Or.inl ⟨rfl, ?_⟩⟩
    · have hlen : w.encode.position + frame.encoded.length ≤ b.bytes.length := by
        simp only [Buffer.available, AMQFrame.size, BufferBase.byteCount] at h hsize
        omega
      refine ⟨{ b with bytes := putBytes b.bytes w.encode.position frame.encoded }, ?_, ?_, ?_⟩
      · simp [Writer.encodeFrame, hb]
      · simp [Writer.encodeFrame, BufferBase.byteCount, putBytes_length _ _ _ hlen, hsize]
      · simp only [Writer.encodeFrame, Buffer.available] at h ⊢
        omega
    · exact ⟨rfl, rfl, rfl, rfl, rfl, rfl, rfl, fun _ hx => hx⟩
    · simp [Writer.encodeFrame]
    · have hp : w.encode.position ≤ b.bytes.length := by
        simpa [hsize, BufferBase.byteCount] using hpos
      simp only [Writer.pending, hb] at hpend
      simp [Writer.pending, Writer.encodeFrame, hb, AMQFrame.size, putBytes_take _ _ _ hp,
        hpend, encodeAll_append, encodeAll_cons, encodeAll_nil]
  · have h' : w.encode.available < frame.size := by omega
    have hrep : frame.size ≤ w.replacement.byteCount := hcap h'
    have hrep' : frame.encoded.length ≤ w.replacement.bytes.length := hrep
    refine ⟨_, w.writeFrame_rotate frame b hb h' hrep, ?_, ?_, ?_, Or.inr ⟨{ b with dataStart := 0, dataCount := w.encode.position }, ?_, rfl, ?_, ?_, ?_⟩⟩
    · refine ⟨{ w.replacement with bytes := putBytes w.replacement.bytes 0 frame.encoded }, ?_, ?_, ?_⟩
      · rw [Writer.newBuffer_eq]
        simp [Writer.encodeFrame, Writer.replacement, queueWrite]
      · rw [Writer.newBuffer_eq]
        simp [Writer.encodeFrame, Writer.replacement, queueWrite, BufferBase.byteCount,
          putBytes_length _ _ 0 (by simpa [Writer.replacement] using hrep')]
      · rw [Writer.newBuffer_eq]
        simpa [Writer.encodeFrame, Writer.replacement, queueWrite, AMQFrame.size] using hrep
    · rw [Writer.newBuffer_eq]
      refine ⟨rfl, rfl, rfl, rfl, rfl, rfl, rfl, fun x hx => ?_⟩
      exact List.mem_of_mem_tail hx
    · rw [Writer.newBuffer_eq]
      simp [Writer.encodeFrame]
    · rw [Writer.newBuffer_eq]
      simp [Writer.encodeFrame, queueWrite]
    · simpa [BufferBase.byteCount, hsize] using hpos
    · simp only [Writer.pending, hb] at hpend
      simpa [BufferBase.window] using hpend
    · rw [Writer.newBuffer_eq]
      have := putBytes_take w.replacement.bytes frame.encoded 0 (Nat.zero_le _)
      simp only [Nat.zero_add, List.take_zero, List.nil_append] at this
      simp [Writer.pending, Writer.encodeFrame, queueWrite, AMQFrame.size, Writer.replacement,
        encodeAll_cons, encodeAll_nil] at this ⊢
      exact this

theorem Writer.writeFrames_spec (fs : List AMQFrame) :
    ∀ (w : Writer) (cur0 : List AMQFrame),
      w.Ready → w.pending = encodeAll cur0 →
      ((∀ f ∈ fs, w.Fits f.size) ∨ (w.writeFrames fs).isSome = true) →
      ∃ (w' : Writer) (newq : List BufferBase) (groups : List (List AMQFrame))
          (cur : List AMQFrame), w.writeFrames fs = some w' ∧ w'.Ready ∧ w.SameQueue w' ∧
        w'.aio.writeQueue = w.aio.writeQueue ++ newq ∧
        (∀ q ∈ newq, q.dataStart = 0 ∧ q.dataCount ≤ q.byteCount) ∧
        newq.map BufferBase.window = groups.map encodeAll ∧
        groups.flatten ++ cur = cur0 ++ fs ∧ w'.pending = encodeAll cur ∧
        newq.length ≤ fs.length ∧
        (fs ≠ [] → (∀ f ∈ fs, 0 < f.size) → 0 < w'.encode.position) := by
  induction fs with
  | nil =>
    intro w cur0 hready hpend _
    exact ⟨w, [], [], cur0, rfl, hready, Writer.SameQueue.refl w, by simp, by simp, rfl,
      by simp, hpend, by simp, fun h => absurd rfl h⟩
  | cons frame rest ih =>
    intro w cur0 hready hpend hfit
    have hcap : w.encode.available < frame.size → frame.size ≤ w.replacement.byteCount := by
      intro hlt
      rcases hfit with hfit | hsome
      · exact w.replacement_fits _ (hfit frame (by simp))
      · obtain ⟨b, hb, _, _⟩ := hready
        refine w.writeFrame_cap frame b hb ?_ hlt
        cases hw : w.writeFrame frame with
        | none => simp [Writer.writeFrames, hw] at hsome
        | some _ => rfl
    obtain ⟨w1, hstep, hready1, hsame1, hposn, hcase⟩ :=
      w.writeFrame_step frame cur0 hready hpend hcap
    have hfit1 : (∀ f ∈ rest, w1.Fits f.size) ∨ (w1.writeFrames rest).isSome = true := by
      rcases hfit with hfit | hsome
      · exact Or.inl fun f hf => hsame1.fits (hfit f (by simp [hf]))
      · exact Or.inr (by simpa [Writer.writeFrames, hstep] using hsome)
    have hpos1 : ∀ w' : Writer, (rest ≠ [] → (∀ f ∈ rest, 0 < f.size) → 0 < w'.encode.position) →
        (rest = [] → w' = w1) →
        (frame :: rest ≠ [] → (∀ f ∈ frame :: rest, 0 < f.size) → 0 < w'.encode.position) := by
      intro w' hne hnil _ hall
      by_cases hr : rest = []
      · rw [hnil hr]
        have := hall frame (by simp)
        omega
      · exact hne hr (fun f hf => hall f (by simp [hf]))
    have hnil1 : ∀ w' : Writer, w1.writeFrames rest = some w' → rest = [] → w' = w1 := by
      intro w' hw' hr
      subst hr
      simpa [Writer.writeFrames] using hw'.symm
    rcases hcase with ⟨hq, hp⟩ | ⟨q, hq, hq0, hqc, hqw, hp⟩
    · obtain ⟨w', newq, groups, cur, hrun, hready', hsame', hwq, hall, hmap, hjoin, hpend', hlen,
        hposn'⟩ := ih w1 (cur0 ++ [frame]) hready1 hp hfit1
      refine ⟨w', newq, groups, cur, ?_, hready', hsame1.trans hsame', ?_, hall, hmap, ?_,
        hpend', ?_, hpos1 w' hposn' (hnil1 w' hrun)⟩
      · simp [Writer.writeFrames, hstep, hrun]
      · rw [hwq, hq]
      · simpa using hjoin
      · simp only [List.length_cons]
        omega
    · obtain ⟨w', newq, groups, cur, hrun, hready', hsame', hwq, hall, hmap, hjoin, hpend', hlen,
        hposn'⟩ := ih w1 [frame] hready1 hp hfit1
      refine ⟨w', q :: newq, cur0 :: groups, cur, ?_, hready', hsame1.trans hsame', ?_, ?_, ?_, ?_,
        hpend', ?_, hpos1 w' hposn' (hnil1 w' hrun)⟩
      · simp [Writer.writeFrames, hstep, hrun]
      · rw [hwq, hq]
        simp
      · intro x hx
        rcases List.mem_cons.mp hx with rfl | hx
        · exact ⟨hq0, hqc⟩
        · exact hall x hx
      · simp [hqw, hmap]
      · simp only [List.flatten_cons, List.append_assoc, hjoin]
        simp
      · simp only [List.length_cons]
        omega

theorem Writer.writeFrame_frames (w w1 : Writer) (frame : AMQFrame)
    (h : w.writeFrame frame = some w1) : w1.frames = w.frames := by
  unfold Writer.writeFrame at h
  by_cases hgt : frame.size > w.encode.available
  · simp only [hgt, if_true] at h
    cases hb : w.buffer with
    | none => simp [Writer.writeOne, hb] at h
    | some b =>
      simp only [Writer.writeOne, hb] at h
      split at h
      · cases h
        rw [Writer.newBuffer_eq]
        rfl
      · cases h
  · simp only [hgt, if_false] at h
    split at h
    · cases h
      rfl
    · cases h

theorem Writer.writeLoop_eq (n : Nat) :
    ∀ (i bytesWritten : Nat) (w : Writer), i + n ≤ w.frames.length →
      w.writeLoop n i bytesWritten =
        (w.writeFrames ((w.frames.drop i).take n)).map fun w' =>
          (bytesWritten + totalSize ((w.frames.drop i).take n), w') := by
  induction n with
  | zero =>
    intro i bw w _
    simp [Writer.writeLoop, Writer.writeFrames, totalSize]
  | succ n ih =>
    intro i bw w hlen
    have hi : i < w.frames.length := by omega
    have hdrop : w.frames.drop i = w.frames[i] :: w.frames.drop (i + 1) :=
      List.drop_eq_getElem_cons hi
    have hget : w.frames[i]? = some w.frames[i] := List.getElem?_eq_getElem hi
    rw [Writer.writeLoop, hget, hdrop, List.take_succ_cons]
    simp only [Writer.writeFrames]
    cases hstep : w.writeFrame w.frames[i] with
    | none => rfl
    | some w1 =>
      have hfr := w.writeFrame_frames w1 _ hstep
      simp only
      rw [ih (i + 1) _ w1 (by rw [hfr]; omega), hfr]
      simp [totalSize, Nat.add_assoc]

/-- Writer::write on a writer whose working buffer is empty: it returns, and
the buffers it queues hold the first `lastEof` frames group by group. -/
theorem Writer.write_spec (w : Writer) (hready : w.Ready) (hempty : w.encode.position = 0)
    (hlen : w.lastEof ≤ w.frames.length)
    (hfit : (∀ f ∈ w.frames.take w.lastEof, w.Fits f.size) ∨ w.write.isSome = true) :
    ∃ (w' : Writer) (newq : List BufferBase) (groups : List (List AMQFrame))
        (rest : List AMQFrame),
      w.write = some w' ∧ w'.Ready ∧ w'.encode.position = 0 ∧
      w'.frames = w.frames.drop w.lastEof ∧ w'.lastEof = 0 ∧
      w'.bounds = w.bounds.map (fun b => b.reduce (totalSize (w.frames.take w.lastEof))) ∧
      w'.maxFrameSize = w.maxFrameSize ∧ w'.aio.pendingWrites = w.aio.pendingWrites ∧
      (∀ b ∈ w'.aio.queuedBuffers, b ∈ w.aio.queuedBuffers) ∧
      w'.aio.writeQueue = w.aio.writeQueue ++ newq ∧
      (∀ q ∈ newq, q.dataStart = 0 ∧ q.dataCount ≤ q.byteCount) ∧
      newq.map BufferBase.window = groups.map encodeAll ∧
      groups.flatten ++ rest = w.frames.take w.lastEof ∧ encodeAll rest = [] ∧
      (w.lastEof = 0 → newq = []) ∧
      ((∀ f ∈ w.frames.take w.lastEof, 0 < f.size) → w.framesEncoded = 0 →
        w'.framesEncoded = 0) := by
  have hpend : w.pending = encodeAll [] := by
    obtain ⟨b, hb, _, _⟩ := hready
    simp [Writer.pending, hb, hempty, encodeAll_nil]
  have hfit' : (∀ f ∈ w.frames.take w.lastEof, w.Fits f.size) ∨
      (w.writeFrames (w.frames.take w.lastEof)).isSome = true := by
    rcases hfit with hfit | hsome
    · exact Or.inl hfit
    · refine Or.inr ?_
      obtain ⟨b, hb, _, _⟩ := hready
      have hloop := Writer.writeLoop_eq w.lastEof 0 0 w (by omega)
      simp only [List.drop_zero] at hloop
      cases hw : w.writeFrames (w.frames.take w.lastEof) with
      | none => simp [Writer.write, hb, hloop, hw] at hsome
      | some _ => rfl
  obtain ⟨w1, newq, groups, cur, hrun, hready1, hsame, hwq, hall, hmap, hjoin, hpend1, hlenq,
    hposn⟩ := Writer.writeFrames_spec (w.frames.take w.lastEof) w [] hready hpend hfit'
  obtain ⟨hs1, hs2, hs3, hs4, hs5, hs6, hs7, hs8⟩ := hsame
  obtain ⟨b, hb, _, _⟩ := hready
  obtain ⟨b1, hb1, hsize1, hpos1⟩ := hready1
  have hloop := Writer.writeLoop_eq w.lastEof 0 0 w (by omega)
  simp only [List.drop_zero, hrun, Option.map_some', Nat.zero_add] at hloop
  simp only [List.nil_append] at hjoin
  by_cases hp : w1.encode.position > 0
  · let q : BufferBase := { b1 with dataStart := 0, dataCount := w1.encode.position }
    let w2 : Writer :=
      { w1 with frames := w1.frames.drop w1.lastEof, lastEof := 0,
                bounds := w1.bounds.map fun bd => bd.reduce (totalSize (w.frames.take w.lastEof)) }
    have hwrite : w.write =
        some (Writer.newBuffer { w2 with framesEncoded := 0, aio := queueWrite w2.aio q }) := by
      simp only [Writer.write, hb, hloop, Buffer.getPosition, hp, if_true, Writer.writeOne, hb1]
    refine ⟨_, newq ++ [q], groups ++ [cur], [], hwrite, ?_, ?_, ?_, ?_, ?_, ?_, ?_, ?_, ?_, ?_,
      ?_, ?_, rfl, ?_, ?_⟩
    · rw [Writer.newBuffer_eq]
      exact ⟨_, rfl, rfl, Nat.zero_le _⟩
    · rw [Writer.newBuffer_eq]
    · rw [Writer.newBuffer_eq]
      simp [w2, hs1, hs2]
    · rw [Writer.newBuffer_eq]
    · rw [Writer.newBuffer_eq]
      simp [w2, hs3]
    · rw [Writer.newBuffer_eq]
      simp [w2, hs4]
    · rw [Writer.newBuffer_eq]
      simp [w2, queueWrite, hs5]
    · rw [Writer.newBuffer_eq]
      intro x hx
      exact hs8 x (List.mem_of_mem_tail hx)
    · rw [Writer.newBuffer_eq]
      simp [w2, queueWrite, hwq]
    · intro x hx
      rcases List.mem_append.mp hx with hx | hx
      · exact hall x hx
      · have hxq : x = q := by simpa using hx
        subst hxq
        exact ⟨rfl, by simpa [q, BufferBase.byteCount, hsize1] using hpos1⟩
    · simp only [Writer.pending, hb1] at hpend1
      simp [hmap, q, BufferBase.window, hpend1]
    · simp [hjoin]
    · intro h0
      exfalso
      have hnil : w1 = w := by
        simpa [h0, Writer.writeFrames] using hrun.symm
      rw [hnil] at hp
      omega
    · intro _ _
      rw [Writer.newBuffer_eq]
  · have hp0 : w1.encode.position = 0 := by omega
    have hwrite : w.write =
        some { w1 with frames := w1.frames.drop w1.lastEof, lastEof := 0,
                       bounds := w1.bounds.map fun bd =>
                         bd.reduce (totalSize (w.frames.take w.lastEof)) } := by
      simp only [Writer.write, hb, hloop, Buffer.getPosition, hp, if_false]
    refine ⟨_, newq, groups, cur, hwrite, ⟨b1, hb1, hsize1, hpos1⟩, hp0, ?_, rfl, ?_, hs4, hs5,
      hs8, hwq, hall, hmap, hjoin, ?_, ?_, ?_⟩
    · simp [hs1, hs2]
    · simp [hs3]
    · simp only [Writer.pending, hb1, hp0, List.take_zero] at hpend1
      exact hpend1.symm
    · intro h0
      have : newq.length ≤ 0 := by simpa [h0] using hlenq
      exact List.length_eq_zero.mp (by omega)
    · intro hallpos hfe
      by_cases h0 : w.frames.take w.lastEof = []
      · have hnil : w1 = w := by
          simpa [h0, Writer.writeFrames] using hrun.symm
        simp [hnil, hfe]
      · have := hposn h0 hallpos
        omega

theorem encodeAll_flatten (groups : List (List AMQFrame)) :
    (groups.map encodeAll).flatten = encodeAll groups.flatten := by
  induction groups with
  | nil => rfl
  | cons g gs ih => simp [encodeAll_append, ih]

theorem sum_dataCount_eq (qs : List BufferBase)
    (h : ∀ q ∈ qs, q.dataStart = 0 ∧ q.dataCount ≤ q.byteCount) :
    (qs.map BufferBase.dataCount).sum = ((qs.map BufferBase.window).flatten).length := by
  induction qs with
  | nil => rfl
  | cons q qs ih =>
    have hq := h q (by simp)
    have hlen : q.window.length = q.dataCount := by
      have := hq.2
      simp only [BufferBase.byteCount] at this
      simp [BufferBase.window, hq.1, List.length_take, this]
    simp [ih (fun x hx => h x (by simp [hx])), hlen]

theorem Writer.handle_frames (w : Writer) (frame : AMQFrame) :
    (w.handle frame).frames = w.frames ++ [frame] := by
  unfold Writer.handle
  split <;> rfl

theorem Writer.handle_idle (w : Writer) (frame : AMQFrame) (h : w.Idle) :
    (w.handle frame).Idle := by
  obtain ⟨⟨b, hb, hs, hp⟩, h0, hl⟩ := h
  unfold Writer.handle
  split
  · exact ⟨⟨b, hb, hs, hp⟩, h0, by simp⟩
  · exact ⟨⟨b, hb, hs, hp⟩, h0, by simp; omega⟩

theorem Writer.handle_atLastEof (w : Writer) (frame : AMQFrame)
    (hl : w.lastEof ≤ w.frames.length) (h : w.AtLastEof) : (w.handle frame).AtLastEof := by
  obtain ⟨h1, h2⟩ := h
  unfold Writer.handle
  by_cases he : frame.getEof = true
  · simp only [he, if_true]
    refine ⟨by simp, Or.inr ⟨frame, ?_, he⟩⟩
    simp
  · simp only [he]
    have he' : frame.eof = false := by simpa [AMQFrame.getEof] using he
    refine ⟨?_, ?_⟩
    · intro f hf
      simp only [Bool.false_eq_true, if_false] at hf
      rw [List.drop_append_of_le_length hl] at hf
      rcases List.mem_append.mp hf with hf | hf
      · exact h1 f hf
      · have : f = frame := by simpa using hf
        rw [this]; exact he'
    · rcases h2 with h2 | ⟨f, hf, hfe⟩
      · exact Or.inl h2
      · right
        refine ⟨f, ?_, hfe⟩
        simp only [Bool.false_eq_true, if_false]
        have hlt : w.lastEof - 1 < w.frames.length := by
          by_contra hge
          rw [List.getElem?_eq_none (by omega)] at hf
          cases hf
        rw [List.getElem?_append_left hlt]
        exact hf

/-- Any sequence of calls, from an idle writer: the sequence returns when the
frames fit, and what it queued and reduced accounts for the frames it took off
the queue. -/
theorem Writer.run_spec (calls : List WriterCall) :
    ∀ (w : Writer), w.Idle →
      ((∀ f ∈ w.frames ++ handled calls, w.Fits f.size) ∨ (w.run calls).isSome = true) →
      ∃ (w' : Writer) (newq : List BufferBase) (newred : List Nat) (flushed : List AMQFrame),
        w.run calls = some w' ∧ w'.Idle ∧
        w'.aio.writeQueue = w.aio.writeQueue ++ newq ∧
        w'.bounds = w.bounds.map (fun b => { reduced := b.reduced ++ newred }) ∧
        w.frames ++ handled calls = flushed ++ w'.frames ∧
        (newq.map BufferBase.window).flatten = encodeAll flushed ∧
        (newq.map BufferBase.dataCount).sum = totalSize flushed ∧
        newred.sum = totalSize flushed ∧ newred.length = writes calls ∧
        (w.AtLastEof → w'.AtLastEof) ∧
        ((∀ f ∈ w.frames ++ handled calls, 0 < f.size) → w.framesEncoded = 0 →
          w'.framesEncoded = 0) := by
  induction calls with
  | nil =>
    intro w hidle _
    refine ⟨w, [], [], [], rfl, hidle, by simp, ?_, by simp [handled], rfl, rfl, rfl, rfl,
      fun h => h, fun _ h => h⟩
    cases w.bounds <;> simp
  | cons c cs ih =>
    intro w hidle hfit
    cases c with
    | handle frame =>
      have hfr := w.handle_frames frame
      have hpool : ∀ size, w.Fits size → (w.handle frame).Fits size := by
        intro size hs
        unfold Writer.handle
        split
        · exact hs
        · exact hs
      have hfit1 : (∀ f ∈ (w.handle frame).frames ++ handled cs, (w.handle frame).Fits f.size) ∨
          ((w.handle frame).run cs).isSome = true := by
        rcases hfit with hfit | hsome
        · left
          intro f hf
          exact hpool _ (hfit f (by simpa [hfr, handled] using hf))
        · right
          simpa [Writer.run, Writer.call] using hsome
      obtain ⟨w', newq, newred, flushed, hrun, hidle', hwq, hbd, hfl, henc, hdc, hsum, hlen,
        heof, hfe⟩ := ih (w.handle frame) (w.handle_idle frame hidle) hfit1
      have hsame : (w.handle frame).aio.writeQueue = w.aio.writeQueue ∧
          (w.handle frame).bounds = w.bounds ∧
          (w.handle frame).framesEncoded = w.framesEncoded := by
        unfold Writer.handle
        split <;> exact ⟨rfl, rfl, rfl⟩
      refine ⟨w', newq, newred, flushed, ?_, hidle', ?_, ?_, ?_, henc, hdc, hsum, ?_, ?_, ?_⟩
      · simp [Writer.run, Writer.call, hrun]
      · rw [hwq, hsame.1]
      · rw [hbd, hsame.2.1]
      · rw [← hfl, hfr]
        simp [handled]
      · simpa [writes] using hlen
      · intro h
        exact heof (w.handle_atLastEof frame hidle.2.2 h)
      · intro hpos h0
        refine hfe (fun f hf => hpos f ?_) (by rw [hsame.2.2, h0])
        simpa [hfr, handled] using hf
    | write =>
      have hfitw : (∀ f ∈ w.frames.take w.lastEof, w.Fits f.size) ∨ w.write.isSome = true := by
        rcases hfit with hfit | hsome
        · left
          intro f hf
          exact hfit f (List.mem_append_left _ (List.mem_of_mem_take hf))
        · right
          cases hw : w.write with
          | none => simp [Writer.run, Writer.call, hw] at hsome
          | some _ => rfl
      obtain ⟨w1, newq1, groups, rest, hwrite, hready1, hpos1, hfr1, hle1, hbd1, hmfs1, _, hpool1,
        hwq1, hall1, hmap1, hjoin1, hrest1, _, hfe1⟩ :=
        w.write_spec hidle.1 hidle.2.1 hidle.2.2 hfitw
      have hidle1 : w1.Idle := ⟨hready1, hpos1, by simp [hle1]⟩
      have hsub : ∀ f ∈ w1.frames, f ∈ w.frames := by
        intro f hf
        rw [hfr1] at hf
        exact List.mem_of_mem_drop hf
      have hfit1 : (∀ f ∈ w1.frames ++ handled cs, w1.Fits f.size) ∨
          (w1.run cs).isSome = true := by
        rcases hfit with hfit | hsome
        · left
          intro f hf
          have hmem : f ∈ w.frames ++ handled (WriterCall.write :: cs) := by
            rcases List.mem_append.mp hf with hf | hf
            · exact List.mem_append_left _ (hsub f hf)
            · exact List.mem_append_right _ (by simpa [handled] using hf)
          have := hfit f hmem
          exact ⟨hmfs1 ▸ this.1, fun b hb => this.2 b (hpool1 b hb)⟩
        · right
          simpa [Writer.run, Writer.call, hwrite] using hsome
      obtain ⟨w', newq, newred, flushed, hrun, hidle', hwq, hbd, hfl, henc, hdc, hsum, hlen,
        heof, hfe⟩ := ih w1 hidle1 hfit1
      have henc1 : (newq1.map BufferBase.window).flatten =
          encodeAll (w.frames.take w.lastEof) := by
        rw [hmap1, encodeAll_flatten, ← hjoin1, encodeAll_append, hrest1, List.append_nil]
      refine ⟨w', newq1 ++ newq, totalSize (w.frames.take w.lastEof) :: newred,
        w.frames.take w.lastEof ++ flushed, ?_, hidle', ?_, ?_, ?_, ?_, ?_, ?_, ?_, ?_, ?_⟩
      · simp [Writer.run, Writer.call, hwrite, hrun]
      · rw [hwq, hwq1, List.append_assoc]
      · rw [hbd, hbd1]
        cases w.bounds <;> simp [Bounds.reduce]
      · have := hfl
        rw [hfr1] at this
        simp only [handled, List.append_assoc]
        rw [← this, ← List.append_assoc, List.take_append_drop]
      · simp [henc1, henc, encodeAll_append]
      · rw [List.map_append, List.sum_append, hdc, sum_dataCount_eq newq1 hall1, henc1,
          length_encodeAll, totalSize_append]
      · simp [hsum, totalSize_append]
      · simp [writes, hlen]
      · intro h
        refine heof ⟨?_, Or.inl hle1⟩
        rw [hle1, hfr1]
        simpa using h.1
      · intro hpos h0
        refine hfe (fun f hf => hpos f ?_) (hfe1 (fun f hf => hpos f ?_) h0)
        · rcases List.mem_append.mp hf with hf | hf
          · exact List.mem_append_left _ (hsub f hf)
          · exact List.mem_append_right _ (by simpa [handled] using hf)
        · exact List.mem_append_left _ (List.mem_of_mem_take hf)

/-! ## Claims on the writer -/

/-- C1 (order preservation).  For every writer that holds an empty working
buffer and whose first `lastEof` queued frames each fit a buffer, Writer::write
returns, and the data windows `[0, dataCount)` of the buffers it passes to
queueWrite, concatenated in queueing order, are exactly the concatenated
encodings of `frames[0] .. frames[lastEof-1]` in queue order, however many
buffers the batch takes. -/
theorem write_preserves_order (w : Writer) (b : BufferBase)
    (hbuf : w.buffer = some b) (hsize : w.encode.size = b.byteCount)
    (hempty : w.encode.position = 0) (hlen : w.lastEof ≤ w.frames.length)
    (hfit : ∀ f ∈ w.frames.take w.lastEof, w.Fits f.size) :
    ∃ (w' : Writer) (newq : List BufferBase),
      w.write = some w' ∧ w'.aio.writeQueue = w.aio.writeQueue ++ newq ∧
      (∀ q ∈ newq, q.dataStart = 0) ∧
      (newq.map fun q => q.bytes.take q.dataCount).flatten =
        encodeAll (w.frames.take w.lastEof) := by
  obtain ⟨w', newq, groups, rest, hwrite, _, _, _, _, _, _, _, _, hwq, hall, hmap, hjoin, hrest,
    _, _⟩ := w.write_spec ⟨b, hbuf, hsize, by omega⟩ hempty hlen (Or.inl hfit)
  refine ⟨w', newq, hwrite, hwq, fun q hq => (hall q hq).1, ?_⟩
  have hwin : (newq.map fun q => q.bytes.take q.dataCount) = newq.map BufferBase.window := by
    apply List.map_congr_left
    intro q hq
    simp [BufferBase.window, (hall q hq).1]
  rw [hwin, hmap, encodeAll_flatten, ← hjoin, encodeAll_append, hrest, List.append_nil]

/-- Witness of C1: three frames of 3, 2 and 1 bytes with 4-byte buffers. -/
theorem write_preserves_order_witness :
    ∃ (w' : Writer) (newq : List BufferBase),
      splitWriter.write = some w' ∧ w'.aio.writeQueue = splitWriter.aio.writeQueue ++ newq ∧
      (∀ q ∈ newq, q.dataStart = 0) ∧
      (newq.map fun q => q.bytes.take q.dataCount).flatten =
        encodeAll (splitWriter.frames.take splitWriter.lastEof) :=
  write_preserves_order splitWriter (Buff 4) rfl rfl rfl (by decide)
    (by simp [splitWriter, Writer.Fits, newAsynchIO, AMQFrame.size])

/-- C6 (frame-boundary splitting).  When Writer::write meets a frame of size S
that fits a replacement buffer while the working buffer has R < S bytes left,
the iteration gets past its assertion, queues the working buffer with
`dataStart = 0` and `dataCount = capacity - R`, and leaves a replacement
buffer holding the whole frame from offset 0, with exactly one buffer queued
for the frame.  Consequently every buffer a write call queues holds the
encodings of a group of whole frames, the groups in order making up the
flushed frames (up to trailing frames whose encoding is empty). -/
theorem frame_boundary_splitting (w : Writer) (b : BufferBase) (frame : AMQFrame)
    (hbuf : w.buffer = some b) (hsize : w.encode.size = b.byteCount)
    (hpos : w.encode.position ≤ w.encode.size)
    (hR : w.encode.available < frame.size) (hfit : w.Fits frame.size) :
    (∃ (w' : Writer) (repl : BufferBase), w.writeFrame frame = some w' ∧
      w'.aio.writeQueue = w.aio.writeQueue ++
        [{ b with dataStart := 0, dataCount := b.byteCount - w.encode.available }] ∧
      w'.buffer = some repl ∧ repl.byteCount = w.replacement.byteCount ∧
      frame.size ≤ repl.byteCount ∧ repl.bytes.take frame.size = frame.encoded ∧
      w'.encode = { size := repl.byteCount, position := frame.size } ∧
      w'.framesEncoded = 1 ∧ w'.frames = w.frames) ∧
    (∀ v : Writer, v.Ready → v.encode.position = 0 → v.lastEof ≤ v.frames.length →
      (∀ f ∈ v.frames.take v.lastEof, v.Fits f.size) →
      ∃ (v' : Writer) (newq : List BufferBase) (groups : List (List AMQFrame))
          (rest : List AMQFrame),
        v.write = some v' ∧ v'.aio.writeQueue = v.aio.writeQueue ++ newq ∧
        newq.map BufferBase.window = groups.map encodeAll ∧
        groups.flatten ++ rest = v.frames.take v.lastEof ∧ encodeAll rest = []) := by
  have hrep : frame.size ≤ w.replacement.byteCount := w.replacement_fits _ hfit
  have hrep' : frame.encoded.length ≤ w.replacement.bytes.length := hrep
  have hlen := putBytes_length w.replacement.bytes frame.encoded 0 (by omega)
  have htake := putBytes_take w.replacement.bytes frame.encoded 0 (Nat.zero_le _)
  simp only [Nat.zero_add, List.take_zero, List.nil_append] at htake
  refine ⟨⟨_, { w.replacement with bytes := putBytes w.replacement.bytes 0 frame.encoded },
    w.writeFrame_rotate frame b hbuf hR hrep, ?_, ?_, ?_, ?_, ?_, ?_, rfl, ?_⟩, ?_⟩
  · rw [Writer.newBuffer_eq]
    have hdc : b.byteCount - w.encode.available = w.encode.position := by
      simp only [Buffer.available]
      omega
    simp [Writer.encodeFrame, queueWrite, hdc]
  · rw [Writer.newBuffer_eq]
    simp [Writer.encodeFrame, Writer.replacement, queueWrite]
  · simp [BufferBase.byteCount, hlen]
  · simpa [BufferBase.byteCount, hlen] using hrep'
  · simpa [AMQFrame.size] using htake
  · rw [Writer.newBuffer_eq]
    have hlen' := hlen
    simp only [Writer.replacement] at hlen'
    simp [Writer.encodeFrame, Writer.replacement, queueWrite, BufferBase.byteCount, hlen']
  · rw [Writer.newBuffer_eq]
    rfl
  · intro v hready hempty hl hfitv
    obtain ⟨v', newq, groups, rest, hwrite, _, _, _, _, _, _, _, _, hwq, _, hmap, hjoin, hrest,
      _, _⟩ := v.write_spec hready hempty hl (Or.inl hfitv)
    exact ⟨v', newq, groups, rest, hwrite, hwq, hmap, hjoin, hrest⟩

/-- Witness of C6: one byte left in a 4-byte buffer, a 2-byte frame arrives. -/
theorem frame_boundary_splitting_witness :
    ∃ (w' : Writer) (repl : BufferBase),
      fullWriter.writeFrame ⟨[4, 5], true⟩ = some w' ∧
      w'.aio.writeQueue = [{ bytes := [1, 2, 3, 0], dataStart := 0, dataCount := 3 }] ∧
      w'.buffer = some repl ∧ repl.bytes.take 2 = [4, 5] :=
  match (frame_boundary_splitting fullWriter
      { bytes := [1, 2, 3, 0], dataStart := 0, dataCount := 0 } ⟨[4, 5], true⟩ rfl rfl
      (by decide) (by decide)
      (by simp [fullWriter, Writer.Fits, newAsynchIO, AMQFrame.size])).1 with
  | ⟨w', repl, h1, h2, h3, _, _, h6, _⟩ => ⟨w', repl, h1, h2, h3, h6⟩

/-- C8 (flush request only at a boundary).  Writer::handle appends the frame
behind the queued frames; a frame with the end-of-group marker sets `lastEof`
to the new queue length and calls notifyPendingWrite once; a frame without it
leaves `lastEof` and the reactor untouched.  No call of handle touches the
working buffer, the encode cursor, the write queue or the counter, so frames
without the marker accumulate behind the boundary, and a write call made
meanwhile encodes only the frames before the boundary and keeps them
queued. -/
theorem handle_requests_flush_only_at_boundary (w : Writer) (frame : AMQFrame) :
    (w.handle frame).frames = w.frames ++ [frame] ∧
    (frame.getEof = true →
      (w.handle frame).lastEof = w.frames.length + 1 ∧
      (w.handle frame).aio = notifyPendingWrite w.aio ∧
      (w.handle frame).aio.pendingWrites = w.aio.pendingWrites + 1) ∧
    (frame.getEof = false →
      (w.handle frame).lastEof = w.lastEof ∧ (w.handle frame).aio = w.aio) ∧
    (w.handle frame).buffer = w.buffer ∧ (w.handle frame).encode = w.encode ∧
    (w.handle frame).framesEncoded = w.framesEncoded ∧
    (w.handle frame).aio.writeQueue = w.aio.writeQueue ∧
    (w.handle frame).bounds = w.bounds ∧
    (∀ fs : List AMQFrame, (∀ f ∈ fs, f.getEof = false) →
      (fs.foldl Writer.handle w).frames = w.frames ++ fs ∧
      (fs.foldl Writer.handle w).lastEof = w.lastEof ∧
      (fs.foldl Writer.handle w).aio = w.aio ∧
      (fs.foldl Writer.handle w).buffer = w.buffer ∧
      (fs.foldl Writer.handle w).encode = w.encode ∧
      (w.Idle → (∀ f ∈ w.frames.take w.lastEof, w.Fits f.size) →
        ∃ (w' : Writer) (newq : List BufferBase),
          (fs.foldl Writer.handle w).write = some w' ∧
          w'.frames = w.frames.drop w.lastEof ++ fs ∧
          w'.aio.writeQueue = w.aio.writeQueue ++ newq ∧
          (newq.map BufferBase.window).flatten = encodeAll (w.frames.take w.lastEof))) := by
  refine ⟨w.handle_frames frame, ?_, ?_, ?_, ?_, ?_, ?_, ?_, ?_⟩
  · intro he
    simp [Writer.handle, he, notifyPendingWrite]
  · intro he
    simp [Writer.handle, he]
  · unfold Writer.handle; split <;> rfl
  · unfold Writer.handle; split <;> rfl
  · unfold Writer.handle; split <;> rfl
  · unfold Writer.handle; split <;> rfl
  · unfold Writer.handle; split <;> rfl
  · intro fs hfs
    have hfold : ∀ (fs : List AMQFrame) (v : Writer), (∀ f ∈ fs, f.getEof = false) →
        fs.foldl Writer.handle v = { v with frames := v.frames ++ fs } := by
      intro fs
      induction fs with
      | nil => intro v _; simp
      | cons f fs ih =>
        intro v hall
        have hf : f.getEof = false := hall f (by simp)
        have hstep : v.handle f = { v with frames := v.frames ++ [f] } := by
          simp [Writer.handle, hf]
        rw [List.foldl_cons, hstep, ih _ (fun g hg => hall g (by simp [hg]))]
        simp
    rw [hfold fs w hfs]
    refine ⟨rfl, rfl, rfl, rfl, rfl, ?_⟩
    intro hidle hfit
    have hl := hidle.2.2
    have htake : (w.frames ++ fs).take w.lastEof = w.frames.take w.lastEof :=
      List.take_append_of_le_length hl
    obtain ⟨w', newq, groups, rest, hwrite, _, _, hfr, _, _, _, _, _, hwq, _, hmap, hjoin, hrest,
      _, _⟩ := Writer.write_spec { w with frames := w.frames ++ fs } hidle.1 hidle.2.1
        (by simp; omega) (Or.inl (by simpa [htake] using hfit))
    refine ⟨w', newq, hwrite, ?_, hwq, ?_⟩
    · rw [hfr]
      exact List.drop_append_of_le_length hl
    · simp only [htake] at hjoin
      rw [hmap, encodeAll_flatten, ← hjoin, encodeAll_append, hrest, List.append_nil]

theorem Writer.init_idle (s : Nat) (b : Option Bounds) (a : AsynchIO) :
    ((Writer.new s b).init a).Idle ∧ ((Writer.new s b).init a).AtLastEof ∧
    ((Writer.new s b).init a).framesEncoded = 0 ∧ ((Writer.new s b).init a).frames = [] := by
  unfold Writer.init
  rw [Writer.newBuffer_eq]
  refine ⟨⟨⟨_, rfl, rfl, Nat.zero_le _⟩, rfl, ?_⟩, ⟨?_, Or.inl rfl⟩, rfl, rfl⟩
  · simp [Writer.new]
  · simp [Writer.new]

/-- C2 (exact flush accounting).  From a writer between calls with a counter
attached, any sequence of handle and write calls whose frames fit a buffer
returns; the amounts it passes to Bounds::reduce add up to the summed encoded
sizes of the frames it took off the queue, whose encodings are exactly the
bytes of the buffers it passed to queueWrite, and to the summed `dataCount`
of those buffers; there is one reduce call per write call, and a write call
reduces by the summed sizes of the frames up to `lastEof`, which it encodes. -/
theorem flush_accounting (w : Writer) (bd : Bounds) (calls : List WriterCall)
    (hidle : w.Idle) (hbounds : w.bounds = some bd)
    (hfit : ∀ f ∈ w.frames ++ handled calls, w.Fits f.size) :
    (∃ (w' : Writer) (newq : List BufferBase) (newred : List Nat) (flushed : List AMQFrame),
      w.run calls = some w' ∧
      w'.aio.writeQueue = w.aio.writeQueue ++ newq ∧
      w'.bounds = some { reduced := bd.reduced ++ newred } ∧
      w.frames ++ handled calls = flushed ++ w'.frames ∧
      (newq.map BufferBase.window).flatten = encodeAll flushed ∧
      newred.sum = totalSize flushed ∧
      totalSize flushed = (newq.map BufferBase.dataCount).sum ∧
      newred.length = writes calls) ∧
    (∃ (w1 : Writer) (newq1 : List BufferBase),
      w.write = some w1 ∧
      w1.bounds = some (bd.reduce (totalSize (w.frames.take w.lastEof))) ∧
      w1.aio.writeQueue = w.aio.writeQueue ++ newq1 ∧
      (newq1.map BufferBase.window).flatten = encodeAll (w.frames.take w.lastEof) ∧
      (newq1.map BufferBase.dataCount).sum = totalSize (w.frames.take w.lastEof)) := by
  constructor
  · obtain ⟨w', newq, newred, flushed, hrun, _, hwq, hbd, hfl, henc, hdc, hsum, hlen, _, _⟩ :=
      Writer.run_spec calls w hidle (Or.inl hfit)
    refine ⟨w', newq, newred, flushed, hrun, hwq, ?_, hfl, henc, hsum, hdc.symm, hlen⟩
    rw [hbd, hbounds]
    rfl
  · obtain ⟨w1, newq1, groups, rest, hwrite, _, _, _, _, hbd1, _, _, _, hwq1, hall1, hmap1, hjoin1,
      hrest1, _, _⟩ := w.write_spec hidle.1 hidle.2.1 hidle.2.2
        (Or.inl fun f hf => hfit f (List.mem_append_left _ (List.mem_of_mem_take hf)))
    have henc1 : (newq1.map BufferBase.window).flatten =
        encodeAll (w.frames.take w.lastEof) := by
      rw [hmap1, encodeAll_flatten, ← hjoin1, encodeAll_append, hrest1, List.append_nil]
    refine ⟨w1, newq1, hwrite, ?_, hwq1, henc1, ?_⟩
    · rw [hbd1, hbounds]
      rfl
    · rw [sum_dataCount_eq newq1 hall1, henc1, length_encodeAll]

/-- Witness of C2: a write that splits over two buffers, a further marked
frame, and a second write. -/
theorem flush_accounting_witness :
    ∃ (w' : Writer) (newq : List BufferBase) (newred : List Nat) (flushed : List AMQFrame),
      splitWriter.run [.write, .handle ⟨[8, 9], true⟩, .write] = some w' ∧
      w'.aio.writeQueue = splitWriter.aio.writeQueue ++ newq ∧
      w'.bounds = some { reduced := [] ++ newred } ∧
      splitWriter.frames ++ handled [.write, .handle ⟨[8, 9], true⟩, .write] =
        flushed ++ w'.frames ∧
      (newq.map BufferBase.window).flatten = encodeAll flushed ∧
      newred.sum = totalSize flushed ∧
      totalSize flushed = (newq.map BufferBase.dataCount).sum ∧
      newred.length = writes [.write, .handle ⟨[8, 9], true⟩, .write] :=
  (flush_accounting splitWriter { reduced := [] } [.write, .handle ⟨[8, 9], true⟩, .write]
    ⟨⟨Buff 4, rfl, rfl, by decide⟩, rfl, by decide⟩ rfl
    (by simp [splitWriter, handled, Writer.Fits, newAsynchIO, AMQFrame.size])).1

/-- C9 (write leaves only the frames after the boundary).  In every writer
state reached from init by handle and write calls, `lastEof` is at most the
queue length and sits right behind the last end-of-group frame of the queue;
when the frames up to `lastEof` fit a buffer, Writer::write returns, removes
exactly the first `lastEof` frames, keeps the later ones (none of which
carries the marker) in order, resets `lastEof` to 0 and leaves the encode
position at 0, and `framesEncoded` at 0 when no submitted frame has an empty
encoding.  A write made when `lastEof` is 0 queues no buffer, reduces the
counter by 0 and leaves the queue as it was. -/
theorem write_leaves_frames_after_boundary (s : Nat) (b : Option Bounds) (a : AsynchIO)
    (calls : List WriterCall) (w : Writer)
    (hreach : ((Writer.new s b).init a).run calls = some w) :
    w.lastEof ≤ w.frames.length ∧ w.AtLastEof ∧
    ((∀ f ∈ w.frames.take w.lastEof, w.Fits f.size) →
      ∃ w' : Writer, w.write = some w' ∧
        w'.frames = w.frames.drop w.lastEof ∧ (∀ f ∈ w'.frames, f.eof = false) ∧
        w'.lastEof = 0 ∧ w'.encode.position = 0 ∧
        ((∀ f ∈ handled calls, 0 < f.size) → w'.framesEncoded = 0) ∧
        (w.lastEof = 0 →
          w'.aio.writeQueue = w.aio.writeQueue ∧ w'.frames = w.frames ∧
          w'.bounds = w.bounds.map fun c => c.reduce 0)) := by
  obtain ⟨hidle0, heof0, hfe0, hfr0⟩ := Writer.init_idle s b a
  obtain ⟨w0, _, _, flushed, hrun, hidle, _, _, hfl, _, _, _, _, heof, hfe⟩ :=
    Writer.run_spec calls _ hidle0 (Or.inr (by rw [hreach]; rfl))
  have hw : w0 = w := by
    rw [hreach] at hrun
    exact (Option.some.inj hrun).symm
  subst hw
  have hat := heof heof0
  rw [hfr0, List.nil_append] at hfl hfe
  refine ⟨hidle.2.2, hat, fun hfit => ?_⟩
  obtain ⟨w', newq, groups, rest, hwrite, _, hpos, hfr, hle, hbd, _, _, _, hwq, _, _, _, _, hnil,
    hfe'⟩ := w0.write_spec hidle.1 hidle.2.1 hidle.2.2 (Or.inl hfit)
  refine ⟨w', hwrite, hfr, ?_, hle, hpos, ?_, ?_⟩
  · rw [hfr]
    exact hat.1
  · intro hpos'
    refine hfe' (fun f hf => hpos' f ?_) (hfe hpos' hfe0)
    rw [hfl]
    exact List.mem_append_right _ (List.mem_of_mem_take hf)
  · intro h0
    refine ⟨by rw [hwq, hnil h0, List.append_nil], by rw [hfr, h0, List.drop_zero], ?_⟩
    rw [hbd, h0]
    rfl

/-- Witness of C9: after init, an unmarked, a marked and another unmarked
frame are submitted; the write leaves the last one queued. -/
theorem write_leaves_frames_after_boundary_witness :
    ∃ w' : Writer,
      (((((Writer.new 4 none).init newAsynchIO).handle ⟨[1, 2, 3], false⟩).handle
        ⟨[4, 5], true⟩).handle ⟨[7], false⟩).write = some w' ∧
      w'.frames = [⟨[7], false⟩] ∧ w'.lastEof = 0 ∧ w'.encode.position = 0 ∧
      w'.framesEncoded = 0 :=
  match write_leaves_frames_after_boundary 4 none newAsynchIO
      [.handle ⟨[1, 2, 3], false⟩, .handle ⟨[4, 5], true⟩, .handle ⟨[7], false⟩]
      (((((Writer.new 4 none).init newAsynchIO).handle ⟨[1, 2, 3], false⟩).handle
        ⟨[4, 5], true⟩).handle ⟨[7], false⟩) rfl with
  | ⟨_, _, h⟩ =>
    match h (by decide) with
    | ⟨w', h1, h2, _, h4, h5, h6, _⟩ => ⟨w', h1, h2, h4, h5, h6 (by decide)⟩

/-- Writer::write on a writer that holds an empty working buffer and exactly
two frames, both before the boundary, that fit the buffer together: one buffer
is queued, holding the first frame followed by the second. -/
theorem Writer.write_two (w : Writer) (b : BufferBase) (frameA frameB : AMQFrame)
    (hbuf : w.buffer = some b) (hsize : w.encode = { size := b.byteCount, position := 0 })
    (hframes : w.frames = [frameA, frameB]) (hlast : w.lastEof = 2)
    (hAB : frameA.size + frameB.size ≤ b.byteCount) (hpos : 0 < frameA.size + frameB.size) :
    ∃ (w' : Writer) (q : BufferBase), w.write = some w' ∧
      w'.aio.writeQueue = w.aio.writeQueue ++ [q] ∧
      q.window = frameA.encoded ++ frameB.encoded ∧
      w'.bounds = w.bounds.map (fun c => c.reduce (frameA.size + frameB.size)) ∧
      w'.aio.pendingWrites = w.aio.pendingWrites := by
  have hroomA : frameA.size ≤ w.encode.available := by
    rw [hsize]; simp only [Buffer.available]; omega
  let wA : Writer := { w.encodeFrame frameA with framesEncoded := w.framesEncoded + 1 }
  have hstepA : w.writeFrame frameA = some wA := w.writeFrame_room frameA hroomA
  have hroomB : frameB.size ≤ wA.encode.available := by
    simp only [wA, Writer.encodeFrame, hsize, Buffer.available]; omega
  let wB : Writer := { wA.encodeFrame frameB with framesEncoded := wA.framesEncoded + 1 }
  have hstepB : wA.writeFrame frameB = some wB := wA.writeFrame_room frameB hroomB
  have hloop := Writer.writeLoop_eq w.lastEof 0 0 w (by rw [hframes, hlast]; rfl)
  rw [hlast, hframes] at hloop
  simp only [List.drop_zero, List.take_succ_cons, List.take_zero, Writer.writeFrames, hstepA,
    hstepB, Option.map_some', Nat.zero_add] at hloop
  have hA : frameA.encoded.length ≤ b.bytes.length := by
    simp only [AMQFrame.size, BufferBase.byteCount] at hAB; omega
  have hlenA := putBytes_length b.bytes frameA.encoded 0 (by omega)
  have h1 := putBytes_take b.bytes frameA.encoded 0 (Nat.zero_le _)
  have h2 := putBytes_take (putBytes b.bytes 0 frameA.encoded) frameB.encoded frameA.encoded.length
    (by omega)
  simp only [Nat.zero_add, List.take_zero, List.nil_append] at h1
  rw [h1] at h2
  let bytes2 := putBytes (putBytes b.bytes 0 frameA.encoded) frameA.encoded.length frameB.encoded
  let w2 : Writer :=
    { wB with frames := wB.frames.drop wB.lastEof, lastEof := 0,
              bounds := wB.bounds.map fun c => c.reduce (totalSize [frameA, frameB]) }
  have hbuf2 : w2.buffer = some { b with bytes := bytes2 } := by
    simp [w2, wB, wA, Writer.encodeFrame, hbuf, hsize, bytes2, AMQFrame.size]
  have hpos2 : w2.encode.getPosition = frameA.size + frameB.size := by
    simp [w2, wB, wA, Writer.encodeFrame, hsize, Buffer.getPosition]
  have hw2 : w.write = Writer.writeOne w2 := by
    simp only [Writer.write, hbuf, hlast, hloop]
    show (if w2.encode.getPosition > 0 then Writer.writeOne w2 else some w2) = _
    rw [if_pos (by rw [hpos2]; exact hpos)]
  have hwrite : w.write = some (Writer.newBuffer
      { w2 with framesEncoded := 0,
                aio := queueWrite w2.aio
                  { bytes := bytes2, dataStart := 0, dataCount := frameA.size + frameB.size } }) := by
    rw [hw2]
    unfold Writer.writeOne
    rw [hbuf2, hpos2]
  refine ⟨_, { bytes := bytes2, dataStart := 0, dataCount := frameA.size + frameB.size },
    hwrite, ?_, ?_, ?_, ?_⟩
  · rw [Writer.newBuffer_eq]
    simp [queueWrite, w2, wB, wA, Writer.encodeFrame]
  · simpa [BufferBase.window, AMQFrame.size, bytes2] using h2
  · rw [Writer.newBuffer_eq]
    simp [totalSize, w2, wB, wA, Writer.encodeFrame]
  · rw [Writer.newBuffer_eq]
    simp [queueWrite, w2, wB, wA, Writer.encodeFrame]

/-- C7, the scenario as claimed fails: with an 8-byte header, a 3-byte frameA
and a 2-byte frameB, the buffers passed to queueWrite are two, the header in a
buffer of its own, and not one buffer holding header, frameA and frameB. -/
theorem scenario_not_one_batch :
    ¬ ∃ (c : Connector) (q : BufferBase),
        freshConnector.scenario 7 ⟨[1, 2, 3], false⟩ ⟨[4, 5], true⟩ = some c ∧
        c.writer.aio.writeQueue = [q] ∧
        q.window = [65, 77, 81, 80, 1, 1, 0, 10] ++ [1, 2, 3] ++ [4, 5] := by
  rintro ⟨c, q, hc, hq, _⟩
  have hlen : (freshConnector.scenario 7 ⟨[1, 2, 3], false⟩ ⟨[4, 5], true⟩).map
      (fun c => c.writer.aio.writeQueue.length) = some 2 := by decide
  rw [hc, Option.map_some', hq] at hlen
  simp at hlen

/-- The connector after connect and init: the handshake sits alone in the one
buffer queued so far, and the writer is idle with an empty queue. -/
theorem Connector.started_eq (ver : List Nat) (mfs : Nat) (cimpl : Option Bounds)
    (thread : Nat) (hver : ver.length ≤ mfs) :
    (Connector.new ver mfs cimpl).started thread =
      some { Connector.new ver mfs cimpl with
        closed := false, joined := false, receiver := thread,
        writer :=
          { maxFrameSize := mfs,
            aio := { newAsynchIO with
              writeQueue := [{ bytes := putBytes (List.replicate mfs 0) 0 ver, dataStart := 0,
                               dataCount := ver.length }] },
            buffer := some (Buff mfs), lastEof := 0, bounds := cimpl, frames := [],
            encode := { size := (Buff mfs).byteCount, position := 0 }, framesEncoded := 0 } } := by
  have h : ver.length ≤ (Buff mfs).byteCount := by simpa [Buff, BufferBase.byteCount] using hver
  simp only [Connector.started, Connector.new, Connector.connect, if_true, Connector.init,
    Connector.writeDataBlock, h, Writer.init, Writer.new, Writer.newBuffer, getQueuedBuffer,
    newAsynchIO, queueWrite, List.nil_append]
  rfl

/-- C7 as amended (end-to-end scenario).  After connect, init, send(frameA
without the marker), send(frameB with the marker) and one write-readiness
callback, two buffers have been passed to queueWrite: the handshake alone,
queued by init, and then one buffer holding frameA followed by frameB (the two
fitting one buffer together, with at least one byte between them); the
counter has been reduced once, by size(frameA) + size(frameB); before frameB
is submitted notifyPendingWrite has not been called, only the handshake buffer
is queued, and a write callback then queues nothing and keeps frameA. -/
theorem end_to_end_scenario (ver : List Nat) (mfs : Nat) (bd : Bounds) (thread : Nat)
    (frameA frameB : AMQFrame) (hA : frameA.getEof = false) (hB : frameB.getEof = true)
    (hver : ver.length ≤ mfs) (hAB : frameA.size + frameB.size ≤ mfs)
    (hpos : 0 < frameA.size + frameB.size) :
    ∃ (c2 c : Connector) (hs q : BufferBase),
      (Connector.new ver mfs (some bd)).started thread = some c2 ∧
      c2.writer.aio.writeQueue = [hs] ∧ hs.window = ver ∧
      (c2.send frameA).writer.aio.pendingWrites = 0 ∧
      (c2.send frameA).writer.aio.writeQueue = [hs] ∧
      (∃ c3 : Connector, (c2.send frameA).writebuff = some c3 ∧
        c3.writer.aio.writeQueue = [hs] ∧ c3.writer.frames = [frameA]) ∧
      (Connector.new ver mfs (some bd)).scenario thread frameA frameB = some c ∧
      c.writer.aio.writeQueue = [hs, q] ∧
      q.window = frameA.encoded ++ frameB.encoded ∧
      c.writer.bounds = some (bd.reduce (frameA.size + frameB.size)) ∧
      c.writer.aio.pendingWrites = 1 := by
  have hstart := Connector.started_eq ver mfs (some bd) thread hver
  have hscen : ∀ c0 : Connector, c0.scenario thread frameA frameB =
      (c0.started thread).bind fun c2 => ((c2.send frameA).send frameB).writebuff := by
    intro c0
    unfold Connector.scenario Connector.started
    cases c0.connect with
    | none => rfl
    | some c1 =>
      dsimp only
      cases c1.init thread <;> rfl
  have hwin : (putBytes (List.replicate mfs 0) 0 ver).take ver.length = ver := by
    have := putBytes_take (List.replicate mfs 0) ver 0 (Nat.zero_le _)
    simpa using this
  have hsendA : ∀ c : Connector, (c.send frameA).writer = { c.writer with frames := c.writer.frames ++ [frameA] } := by
    intro c
    simp [Connector.send, Writer.handle, hA]
  have hsendB : ∀ c : Connector, (c.send frameB).writer =
      { c.writer with frames := c.writer.frames ++ [frameB],
                      lastEof := (c.writer.frames ++ [frameB]).length,
                      aio := notifyPendingWrite c.writer.aio } := by
    intro c
    simp [Connector.send, Writer.handle, hB]
  -- the write callback made before frameB is submitted
  obtain ⟨c2, hc2⟩ : ∃ c2, (Connector.new ver mfs (some bd)).started thread = some c2 := ⟨_, hstart⟩
  have hc2' := hc2
  rw [hstart] at hc2'
  have hc2eq := (Option.some.inj hc2').symm
  obtain ⟨wE, newqE, _, _, hwriteE, _, _, hfrE, _, _, _, _, _, hwqE, _, _, _, _, hnilE, _⟩ :=
    Writer.write_spec (c2.send frameA).writer
      ⟨Buff mfs, by rw [hsendA, hc2eq], by rw [hsendA, hc2eq], by rw [hsendA, hc2eq]; exact Nat.zero_le _⟩
      (by rw [hsendA, hc2eq]) (by rw [hsendA, hc2eq]; exact Nat.zero_le _)
      (Or.inl (by rw [hsendA, hc2eq]; intro f hf; simp at hf))
  have hlastE : (c2.send frameA).writer.lastEof = 0 := by rw [hsendA, hc2eq]
  -- the write callback of the scenario
  obtain ⟨w', q, hwrite, hwq, hqwin, hbd, hpw⟩ :=
    Writer.write_two ((c2.send frameA).send frameB).writer (Buff mfs) frameA frameB
      (by rw [hsendB, hsendA, hc2eq]) (by rw [hsendB, hsendA, hc2eq])
      (by rw [hsendB, hsendA, hc2eq]; rfl) (by rw [hsendB, hsendA, hc2eq]; rfl)
      (by simpa [Buff, BufferBase.byteCount] using hAB) hpos
  refine ⟨c2, { (c2.send frameA).send frameB with writer := w' },
    { bytes := putBytes (List.replicate mfs 0) 0 ver, dataStart := 0, dataCount := ver.length },
    q, hc2, by rw [hc2eq], by simpa [BufferBase.window] using hwin, ?_, ?_, ?_, ?_, ?_, hqwin, ?_, ?_⟩
  · rw [hsendA, hc2eq]; rfl
  · rw [hsendA, hc2eq]
  · refine ⟨{ c2.send frameA with writer := wE }, ?_, ?_, ?_⟩
    · simp [Connector.writebuff, hwriteE]
    · show wE.aio.writeQueue = _
      rw [hwqE, hnilE hlastE, List.append_nil, hsendA, hc2eq]
    · show wE.frames = _
      rw [hfrE, hlastE, List.drop_zero, hsendA, hc2eq]; rfl
  · rw [hscen, hc2]
    simp [Connector.writebuff, hwrite]
  · show w'.aio.writeQueue = _
    rw [hwq, hsendB, hsendA, hc2eq]; rfl
  · show w'.bounds = _
    rw [hbd, hsendB, hsendA, hc2eq]; rfl
  · show w'.aio.pendingWrites = _
    rw [hpw, hsendB, hsendA, hc2eq]; rfl

/-- Witness of C7 as amended: an 8-byte header, a 3-byte frameA and a 2-byte
frameB with 16-byte buffers. -/
theorem end_to_end_scenario_witness :
    ∃ (c : Connector) (hs q : BufferBase),
      freshConnector.scenario 7 ⟨[1, 2, 3], false⟩ ⟨[4, 5], true⟩ = some c ∧
      c.writer.aio.writeQueue = [hs, q] ∧ hs.window = [65, 77, 81, 80, 1, 1, 0, 10] ∧
      q.window = [1, 2, 3] ++ [4, 5] ∧
      c.writer.bounds = some (Bounds.reduce { reduced := [] } (3 + 2)) :=
  match end_to_end_scenario [65, 77, 81, 80, 1, 1, 0, 10] 16 { reduced := [] } 7
      ⟨[1, 2, 3], false⟩ ⟨[4, 5], true⟩ rfl rfl (by decide) (by decide) (by decide) with
  | ⟨_, c, hs, q, _, _, h3, _, _, _, h7, h8, h9, h10, _⟩ => ⟨c, hs, q, h7, h8, h3, h9, h10⟩


/-! ## Claims on closing -/

theorem Connector.closeInternal_fields (c : Connector) (current : Nat) :
    (c.closeInternal current).1 = !c.closed ∧
    (c.closeInternal current).2.closed = true ∧
    (c.closeInternal current).2.pollerShutdowns =
      c.pollerShutdowns + (if c.closed then 0 else 1) ∧
    (c.closeInternal current).2.shutdownHandler = c.shutdownHandler ∧
    (c.closeInternal current).2.receiver = c.receiver ∧
    (c.closeInternal current).2.joined = (c.joined || c.receiver != current) ∧
    (c.closeInternal current).2.receiverJoins =
      c.receiverJoins + (if !c.joined && c.receiver != current then 1 else 0) := by
  unfold Connector.closeInternal
  cases hc : c.closed <;> cases hj : c.joined <;> cases hr : (c.receiver != current) <;>
    simp [hc, hj, hr]

theorem Connector.closeCall_fields (c : Connector) (call : CloseCall) :
    (c.closeCall call).1 = !c.closed ∧
    (c.closeCall call).2.closed = true ∧
    (c.closeCall call).2.pollerShutdowns = c.pollerShutdowns + (if c.closed then 0 else 1) ∧
    (c.closeCall call).2.shutdownHandler =
      (match call, c.closed with
       | .handleClosed _, false => c.shutdownHandler.map (· + 1)
       | _, _ => c.shutdownHandler) ∧
    (c.closeCall call).2.receiver = c.receiver ∧
    (c.closeCall call).2.joined = (c.joined || c.receiver != call.current) ∧
    (c.closeCall call).2.receiverJoins =
      c.receiverJoins + (if !c.joined && c.receiver != call.current then 1 else 0) := by
  cases call with
  | close t =>
    obtain ⟨h1, h2, h3, h4, h5, h6, h7⟩ := c.closeInternal_fields t
    refine ⟨h1, h2, h3, ?_, h5, h6, h7⟩
    simp only [Connector.closeCall, Connector.close, h4]
  | handleClosed t =>
    obtain ⟨h1, h2, h3, h4, h5, h6, h7⟩ := c.closeInternal_fields t
    have hh : c.handleClosed t =
        match (c.closeInternal t).1, (c.closeInternal t).2.shutdownHandler with
        | true, some calls => { (c.closeInternal t).2 with shutdownHandler := some (calls + 1) }
        | _, _ => (c.closeInternal t).2 := rfl
    simp only [Connector.closeCall, CloseCall.current]
    rw [hh, h1, h4]
    cases hc : c.closed <;> cases hs : c.shutdownHandler <;>
      simp [hc, hs, h2, h3, h5, h6, h7] at * <;> simp [*]

theorem Connector.closeCalls_closed (calls : List CloseCall) :
    ∀ c : Connector, c.closed = true →
      (c.closeCalls calls).1 = List.replicate calls.length false ∧
      (c.closeCalls calls).2.closed = true ∧
      (c.closeCalls calls).2.pollerShutdowns = c.pollerShutdowns ∧
      (c.closeCalls calls).2.shutdownHandler = c.shutdownHandler := by
  induction calls with
  | nil => intro c hc; exact ⟨rfl, hc, rfl, rfl⟩
  | cons call calls ih =>
    intro c hc
    obtain ⟨h1, h2, h3, h4, _, _, _⟩ := c.closeCall_fields call
    obtain ⟨i1, i2, i3, i4⟩ := ih (c.closeCall call).2 h2
    have h4' : (c.closeCall call).2.shutdownHandler = c.shutdownHandler := by
      rw [h4, hc]
      cases call <;> rfl
    refine ⟨?_, ?_, ?_, ?_⟩
    · simp [Connector.closeCalls, i1, h1, hc, List.replicate_succ]
    · simpa [Connector.closeCalls] using i2
    · simp [Connector.closeCalls, i3, h3, hc]
    · simp [Connector.closeCalls, i4, h4']

theorem Connector.closeCalls_joins (calls : List CloseCall) :
    ∀ c : Connector,
      (c.closeCalls calls).2.receiverJoins + (if (c.closeCalls calls).2.joined then 0 else 1) =
        c.receiverJoins + (if c.joined then 0 else 1) ∧
      (c.closeCalls calls).2.receiver = c.receiver ∧
      (c.joined = true → (c.closeCalls calls).2.joined = true) ∧
      ((∀ call ∈ calls, call.current = c.receiver) →
        (c.closeCalls calls).2.receiverJoins = c.receiverJoins ∧
        (c.closeCalls calls).2.joined = c.joined) := by
  induction calls with
  | nil => intro c; exact ⟨rfl, rfl, fun h => h, fun _ => ⟨rfl, rfl⟩⟩
  | cons call calls ih =>
    intro c
    obtain ⟨_, _, _, _, h5, h6, h7⟩ := c.closeCall_fields call
    obtain ⟨i1, i2, im, i3⟩ := ih (c.closeCall call).2
    have hstep : (c.closeCalls (call :: calls)).2 = ((c.closeCall call).2.closeCalls calls).2 := rfl
    rw [hstep]
    refine ⟨?_, by rw [i2, h5], ?_, ?_⟩
    · rw [i1, h6, h7]
      cases c.joined <;> cases (c.receiver != call.current) <;> simp
    · intro hj
      exact im (by rw [h6, hj]; simp)
    · intro hall
      have hc : c.receiver = call.current := (hall call (by simp)).symm
      have hne : (c.receiver != call.current) = false := by simp [hc]
      obtain ⟨j1, j2⟩ := i3 (fun x hx => by rw [h5]; exact hall x (by simp [hx]))
      rw [j1, j2, h6, h7, hne]
      simp

/-- C3 (idempotent close).  For every non-empty sequence of close() and
handleClosed() calls on a connected connector, closeInternal returns true in
the first call and false in every later one, the poller is shut down exactly
once, the connector is closed afterwards, and the shutdown handler is invoked
once if the first call is handleClosed and a handler is registered, and not at
all otherwise. -/
theorem close_is_idempotent (c : Connector) (hopen : c.closed = false) (call : CloseCall)
    (calls : List CloseCall) :
    (c.closeCalls (call :: calls)).1 = true :: List.replicate calls.length false ∧
    (c.closeCalls (call :: calls)).2.closed = true ∧
    (c.closeCalls (call :: calls)).2.pollerShutdowns = c.pollerShutdowns + 1 ∧
    (c.closeCalls (call :: calls)).2.shutdownHandler =
      (match call with
       | .handleClosed _ => c.shutdownHandler.map (· + 1)
       | .close _ => c.shutdownHandler) := by
  obtain ⟨h1, h2, h3, h4, _, _, _⟩ := c.closeCall_fields call
  obtain ⟨i1, i2, i3, i4⟩ := Connector.closeCalls_closed calls (c.closeCall call).2 h2
  refine ⟨?_, ?_, ?_, ?_⟩
  · simp [Connector.closeCalls, i1, h1, hopen]
  · simpa [Connector.closeCalls] using i2
  · simp [Connector.closeCalls, i3, h3, hopen]
  · have : (c.closeCalls (call :: calls)).2.shutdownHandler =
        (c.closeCall call).2.shutdownHandler := by
      simp [Connector.closeCalls, i4]
    rw [this, h4, hopen]
    cases call <;> rfl

/-- Witness of C3: handleClosed on the dispatch thread, then two close()
calls from other threads. -/
theorem close_is_idempotent_witness :
    (openConnector.closeCalls [.handleClosed 7, .close 1, .close 2]).1 =
        true :: List.replicate 2 false ∧
    (openConnector.closeCalls [.handleClosed 7, .close 1, .close 2]).2.closed = true ∧
    (openConnector.closeCalls [.handleClosed 7, .close 1, .close 2]).2.pollerShutdowns =
        openConnector.pollerShutdowns + 1 ∧
    (openConnector.closeCalls [.handleClosed 7, .close 1, .close 2]).2.shutdownHandler =
        openConnector.shutdownHandler.map (· + 1) :=
  close_is_idempotent openConnector rfl (.handleClosed 7) [.close 1, .close 2]

/-- C10 (no self-join on close).  With the caller's thread id as an input,
closeInternal called on the dispatch thread does not join and leaves `joined`
as it was (so false while the join is pending), while closing the connector
and shutting the poller down if it was open; called on another thread with
`joined` false it sets `joined` and joins once.  Over any sequence of closing
calls the dispatch thread is joined at most once, and not at all by calls
made on the dispatch thread. -/
theorem close_never_joins_itself (c : Connector) (current : Nat) (calls : List CloseCall) :
    (current = c.receiver →
      (c.closeInternal current).2.receiverJoins = c.receiverJoins ∧
      (c.closeInternal current).2.joined = c.joined ∧
      (c.closeInternal current).2.closed = true ∧
      (c.closeInternal current).2.pollerShutdowns =
        c.pollerShutdowns + (if c.closed then 0 else 1)) ∧
    (current ≠ c.receiver → c.joined = false →
      (c.closeInternal current).2.joined = true ∧
      (c.closeInternal current).2.receiverJoins = c.receiverJoins + 1) ∧
    (c.joined = true →
      (c.closeInternal current).2.joined = true ∧
      (c.closeInternal current).2.receiverJoins = c.receiverJoins) ∧
    (c.closeCalls calls).2.receiverJoins ≤ c.receiverJoins + 1 ∧
    (c.joined = true → (c.closeCalls calls).2.receiverJoins = c.receiverJoins) ∧
    ((c.closeCalls calls).2.receiverJoins = c.receiverJoins + 1 →
      (c.closeCalls calls).2.joined = true) ∧
    ((∀ call ∈ calls, call.current = c.receiver) →
      (c.closeCalls calls).2.receiverJoins = c.receiverJoins ∧
      (c.closeCalls calls).2.joined = c.joined) := by
  obtain ⟨_, h2, h3, _, _, h6, h7⟩ := c.closeInternal_fields current
  obtain ⟨i1, _, im, i3⟩ := Connector.closeCalls_joins calls c
  refine ⟨?_, ?_, ?_, ?_, ?_, ?_, i3⟩
  · intro hcur
    have hne : (c.receiver != current) = false := by simp [hcur]
    refine ⟨by rw [h7, hne]; simp, by rw [h6, hne]; simp, h2, h3⟩
  · intro hcur hj
    have hne : (c.receiver != current) = true := by
      simpa using fun h : c.receiver = current => hcur h.symm
    exact ⟨by rw [h6, hne]; simp, by rw [h7, hj, hne]; simp⟩
  · intro hj
    exact ⟨by rw [h6, hj]; simp, by rw [h7, hj]; simp⟩
  · cases hj : c.joined <;> cases hj' : (c.closeCalls calls).2.joined <;>
      simp [hj, hj'] at i1 <;> omega
  · intro hj
    simp [hj, im hj] at i1
    exact i1
  · intro hinc
    cases hj : c.joined
    · cases hj' : (c.closeCalls calls).2.joined
      · simp [hj, hj'] at i1
        omega
      · rfl
    · exact im hj


/-! ## Claims on the reader -/

theorem Connector.decodeLoop_decodes (decode : List Nat → Option (AMQFrame × Nat))
    (data : List Nat) (size : Nat) {x : List Nat} {fs : List AMQFrame} {k : Nat}
    (h : Decodes decode x fs k) :
    ∀ (fuel pos : Nat) (input : List AMQFrame), x = data.drop pos → fs.length < fuel →
      Connector.decodeLoop decode data fuel { size := size, position := pos } input =
        some ({ size := size, position := pos + k }, input ++ fs) := by
  induction h with
  | done hx =>
    intro fuel pos input hdata hfuel
    cases fuel with
    | zero => simp at hfuel
    | succ fuel => simp [Connector.decodeLoop, ← hdata, hx]
  | @step x f n fs k hx _ ih =>
    intro fuel pos input hdata hfuel
    cases fuel with
    | zero => simp at hfuel
    | succ fuel =>
      have hrest : x.drop n = data.drop (pos + n) := by
        rw [hdata, List.drop_drop, Nat.add_comm]
      have := ih fuel (pos + n) (input ++ [f]) hrest (by simpa using hfuel)
      simp [Connector.decodeLoop, ← hdata, hx, this, Nat.add_assoc]

/-- Connector::readbuff after the handshake, on a well-formed buffer whose
window decodes to `fs` consuming `k` bytes: the call returns, delivers `fs`,
and hands the buffer back with the window shrunk to the bytes from `k` on. -/
theorem Connector.readbuff_decodes (initDecode : List Nat → Option Nat)
    (decode : List Nat → Option (AMQFrame × Nat)) (c : Connector) (buff : BufferBase)
    (fs : List AMQFrame) (k : Nat) (hinit : c.initiated = true)
    (hwf : buff.dataStart + buff.dataCount ≤ buff.byteCount)
    (hdec : Decodes decode buff.window fs k) (hk : k ≤ buff.dataCount)
    (hfs : fs.length ≤ buff.dataCount) :
    ∃ c' : Connector, c.readbuff initDecode decode buff = some c' ∧
      c'.input = c.input ++ fs ∧ c'.initiated = true ∧ c'.writer.frames = c.writer.frames ∧
      c.Leaves c' buff (buff.window.drop k) ∧
      (buff.window.drop k ≠ [] →
        c'.writer.aio.unreadBuffers = c.writer.aio.unreadBuffers ++
          [{ buff with dataStart := buff.dataStart + k, dataCount := buff.dataCount - k }]) := by
  have hloop := Connector.decodeLoop_decodes decode buff.window buff.dataCount hdec
    (buff.dataCount + 1) 0 c.input (by simp) (by omega)
  have hwlen : buff.window.length = buff.dataCount := by
    simp only [BufferBase.byteCount] at hwf
    simp only [BufferBase.window, List.length_take, List.length_drop]
    omega
  have hdroplen : (buff.window.drop k).length = buff.dataCount - k := by
    rw [List.length_drop, hwlen]
  have hwin : ({ buff with dataStart := buff.dataStart + k,
                           dataCount := buff.dataCount - k } : BufferBase).window =
      buff.window.drop k := by
    simp only [BufferBase.window, List.drop_take, List.drop_drop]
  have hsub : buff.dataCount - (buff.dataCount - k) = k := by omega
  by_cases hrest : buff.dataCount - k = 0
  · have hnil : buff.window.drop k = [] := List.length_eq_zero.mp (by rw [hdroplen, hrest])
    refine ⟨{ c with initiated := true, input := c.input ++ fs,
                     writer := { c.writer with aio := queueReadBuffer c.writer.aio buff } },
      ?_, rfl, rfl, rfl, Or.inr ⟨hnil, rfl, rfl⟩, fun h => absurd hnil h⟩
    simp [Connector.readbuff, hinit, hloop, Buffer.available, hrest]
  · have hne : buff.window.drop k ≠ [] := by
      intro h
      rw [h] at hdroplen
      simp at hdroplen
      omega
    let ub : BufferBase :=
      { buff with dataStart := buff.dataStart + k, dataCount := buff.dataCount - k }
    refine ⟨{ c with initiated := true, input := c.input ++ fs,
                     writer := { c.writer with aio := unread c.writer.aio ub } },
      ?_, rfl, rfl, rfl, Or.inl ⟨hne, rfl, ub, rfl, rfl, hwin, ?_⟩, fun _ => rfl⟩
    · simp [Connector.readbuff, hinit, hloop, Buffer.available, hrest, hsub, ub]
    · simp only [ub]
      omega

theorem BufferBase.window_length (buff : BufferBase)
    (hwf : buff.dataStart + buff.dataCount ≤ buff.byteCount) :
    buff.window.length = buff.dataCount := by
  simp only [BufferBase.byteCount] at hwf
  simp only [BufferBase.window, List.length_take, List.length_drop]
  omega

theorem decodes_encodeAll (decode : List Nat → Option (AMQFrame × Nat)) (tail : List Nat)
    (htail : decode tail = none) (fs : List AMQFrame)
    (hcodec : ∀ f ∈ fs, ∀ rest, decode (f.encoded ++ rest) = some (f, f.size)) :
    Decodes decode (encodeAll fs ++ tail) fs (totalSize fs) ∧ fs.length ≤ totalSize fs := by
  induction fs with
  | nil => exact ⟨Decodes.done htail, Nat.le_refl _⟩
  | cons f fs ih =>
    obtain ⟨ih1, ih2⟩ := ih (fun g hg => hcodec g (by simp [hg]))
    have hf := hcodec f (by simp)
    have hpos : 0 < f.size := by
      by_contra h0
      have hnil : f.encoded = [] := List.length_eq_zero.mp (by simp only [AMQFrame.size] at h0; omega)
      have := hf tail
      rw [hnil, List.nil_append, htail] at this
      cases this
    have hx : encodeAll (f :: fs) ++ tail = f.encoded ++ (encodeAll fs ++ tail) := by
      rw [encodeAll_cons, List.append_assoc]
    have hsz : totalSize (f :: fs) = f.size + totalSize fs := by simp [totalSize]
    rw [hx, hsz]
    refine ⟨Decodes.step (hf _) ?_, ?_⟩
    · have hdrop : List.drop f.size (f.encoded ++ (encodeAll fs ++ tail)) =
          encodeAll fs ++ tail := List.drop_left' rfl
      rw [hdrop]
      exact ih1
    · simp only [List.length_cons]
      omega

theorem decodes_exists (decode : List Nat → Option (AMQFrame × Nat))
    (hprog : ∀ x f n, decode x = some (f, n) → 0 < n ∧ n ≤ x.length) :
    ∀ (m : Nat) (x : List Nat), x.length ≤ m →
      ∃ (fs : List AMQFrame) (k : Nat), Decodes decode x fs k ∧ k ≤ x.length ∧ fs.length ≤ k := by
  intro m
  induction m with
  | zero =>
    intro x hx
    cases hd : decode x with
    | none => exact ⟨[], 0, Decodes.done hd, Nat.zero_le _, Nat.le_refl _⟩
    | some p =>
      obtain ⟨f, n⟩ := p
      have := hprog x f n hd
      omega
  | succ m ih =>
    intro x hx
    cases hd : decode x with
    | none => exact ⟨[], 0, Decodes.done hd, Nat.zero_le _, Nat.le_refl _⟩
    | some p =>
      obtain ⟨f, n⟩ := p
      obtain ⟨hn0, hnx⟩ := hprog x f n hd
      obtain ⟨fs, k, hdec, hk, hfs⟩ := ih (x.drop n) (by rw [List.length_drop]; omega)
      rw [List.length_drop] at hk
      exact ⟨f :: fs, n + k, Decodes.step hd hdec, by omega, by simp only [List.length_cons]; omega⟩

theorem decodes_append (decode : List Nat → Option (AMQFrame × Nat))
    (hprog : ∀ x f n, decode x = some (f, n) → 0 < n ∧ n ≤ x.length)
    (hstable : ∀ x y f n, decode x = some (f, n) → decode (x ++ y) = some (f, n))
    (b : List Nat) {fsB : List AMQFrame} {kB : Nat}
    {a : List Nat} {fsA : List AMQFrame} {kA : Nat} (hA : Decodes decode a fsA kA) :
    Decodes decode (a.drop kA ++ b) fsB kB → Decodes decode (a ++ b) (fsA ++ fsB) (kA + kB) := by
  induction hA with
  | done _ =>
    intro hB
    simpa using hB
  | @step x f n fs k hx _ ih =>
    intro hB
    have hn := (hprog x f n hx).2
    have hdd : (x.drop n).drop k = x.drop (n + k) := by
      rw [List.drop_drop, Nat.add_comm]
    have hrest := ih (by rw [hdd]; exact hB)
    have hstep : Decodes decode (x ++ b) (f :: (fs ++ fsB)) (n + (k + kB)) := by
      refine Decodes.step (hstable x b f n hx) ?_
      rw [List.drop_append_of_le_length hn]
      exact hrest
    simpa [Nat.add_assoc] using hstep

/-- C4 (carry-forward window).  After the handshake has been seen, for every
well-formed read buffer whose window holds the encodings of the frames `fs`
followed by bytes `tail` on which the decoder fails, readbuff returns and
passes exactly the frames `fs` to `received`, in wire order; if `tail` is not
empty it hands to `unread` the buffer, bytes unchanged, with `dataStart`
advanced by `dataCount - tail.length` and `dataCount` set to `tail.length`, a
window that holds `tail`; if `tail` is empty it hands the buffer to
`queueReadBuffer`. -/
theorem readbuff_carries_tail_forward (initDecode : List Nat → Option Nat)
    (decode : List Nat → Option (AMQFrame × Nat)) (c : Connector) (buff : BufferBase)
    (fs : List AMQFrame) (tail : List Nat) (hinit : c.initiated = true)
    (hwf : buff.dataStart + buff.dataCount ≤ buff.byteCount)
    (hwin : buff.window = encodeAll fs ++ tail)
    (hcodec : ∀ f ∈ fs, ∀ rest, decode (f.encoded ++ rest) = some (f, f.size))
    (htail : decode tail = none) :
    ∃ c' : Connector, c.readbuff initDecode decode buff = some c' ∧
      c'.input = c.input ++ fs ∧
      (tail ≠ [] →
        c'.writer.aio.unreadBuffers = c.writer.aio.unreadBuffers ++
          [{ buff with dataStart := buff.dataStart + (buff.dataCount - tail.length),
                       dataCount := tail.length }] ∧
        ({ buff with dataStart := buff.dataStart + (buff.dataCount - tail.length),
                     dataCount := tail.length } : BufferBase).window = tail ∧
        c'.writer.aio.readQueue = c.writer.aio.readQueue) ∧
      (tail = [] →
        c'.writer.aio.readQueue = c.writer.aio.readQueue ++ [buff] ∧
        c'.writer.aio.unreadBuffers = c.writer.aio.unreadBuffers) := by
  obtain ⟨hdec, hfs⟩ := decodes_encodeAll decode tail htail fs hcodec
  have hwlen := buff.window_length hwf
  have hcount : buff.dataCount = totalSize fs + tail.length := by
    rw [← hwlen, hwin, List.length_append, length_encodeAll]
  have hdrop : buff.window.drop (totalSize fs) = tail := by
    rw [hwin]
    exact List.drop_left' (length_encodeAll fs)
  obtain ⟨c', hread, hinput, _, _, hleaves, hunread⟩ :=
    Connector.readbuff_decodes initDecode decode c buff fs (totalSize fs) hinit hwf
      (hwin ▸ hdec) (by omega) (by omega)
  rw [hdrop] at hleaves hunread
  have hstart : buff.dataStart + (buff.dataCount - tail.length) =
      buff.dataStart + totalSize fs := by omega
  have hlen : buff.dataCount - totalSize fs = tail.length := by omega
  refine ⟨c', hread, hinput, ?_, ?_⟩
  · intro hne
    rw [hstart, ← hlen]
    refine ⟨hunread hne, ?_, ?_⟩
    · simp only [BufferBase.window, List.drop_take, List.drop_drop] at hdrop ⊢
      exact hdrop
    · rcases hleaves with ⟨_, hq, _⟩ | ⟨hnil, _, _⟩
      · exact hq
      · exact absurd hnil hne
  · intro hnil
    rcases hleaves with ⟨hne, _, _⟩ | ⟨_, hu, hq⟩
    · exact absurd hnil hne
    · exact ⟨hq, hu⟩

/-- Witness of C4: two complete frames followed by 3 bytes of a 4-byte frame,
in a window that starts at offset 2: two frames are delivered and the window
left is the 3 bytes at offsets 7 to 9. -/
theorem readbuff_carries_tail_forward_witness :
    ∃ c' : Connector,
      Connector.readbuff (fun _ => none) lengthDecode { openConnector with initiated := true }
        carryBuffer = some c' ∧
      c'.input = [⟨[3, 0, 9], false⟩, ⟨[2, 1], true⟩] ∧
      c'.writer.aio.unreadBuffers = [{ carryBuffer with dataStart := 7, dataCount := 3 }] ∧
      ({ carryBuffer with dataStart := 7, dataCount := 3 } : BufferBase).window = [4, 0, 5] :=
  match readbuff_carries_tail_forward (fun _ => none) lengthDecode
      { openConnector with initiated := true } carryBuffer
      [⟨[3, 0, 9], false⟩, ⟨[2, 1], true⟩] [4, 0, 5] rfl (by decide) (by decide)
      (by simp [lengthDecode, AMQFrame.size]) (by decide) with
  | ⟨c', h1, h2, h3, _⟩ => ⟨c', h1, h2, (h3 (by decide)).1, (h3 (by decide)).2.1⟩

/-- C5 (resume as one unit).  After the handshake has been seen, with a frame
decoder that on success consumes at least one and at most the available
bytes, and whose success on some bytes is not changed by bytes that follow
them, for every split `a ++ b` of a byte sequence: readbuff on a buffer
holding `a` leaves some bytes `restA` unread, and readbuff on a buffer holding
`restA ++ b` then delivers to `received`, over the two calls, the same frames
in the same order as one readbuff call on a buffer holding `a ++ b`, and
leaves the same unread bytes. -/
theorem readbuff_resumes_as_one_unit (initDecode : List Nat → Option Nat)
    (decode : List Nat → Option (AMQFrame × Nat)) (c : Connector)
    (buffA buffW : BufferBase) (a b : List Nat) (hinit : c.initiated = true)
    (hprog : ∀ x f n, decode x = some (f, n) → 0 < n ∧ n ≤ x.length)
    (hstable : ∀ x y f n, decode x = some (f, n) → decode (x ++ y) = some (f, n))
    (hwfA : buffA.dataStart + buffA.dataCount ≤ buffA.byteCount) (hA : buffA.window = a)
    (hwfW : buffW.dataStart + buffW.dataCount ≤ buffW.byteCount)
    (hW : buffW.window = a ++ b) :
    ∃ (cA : Connector) (fsA : List AMQFrame) (restA : List Nat),
      c.readbuff initDecode decode buffA = some cA ∧ cA.input = c.input ++ fsA ∧
      c.Leaves cA buffA restA ∧
      ∀ buffB : BufferBase, buffB.dataStart + buffB.dataCount ≤ buffB.byteCount →
        buffB.window = restA ++ b →
        ∃ (cB cW : Connector) (fsB : List AMQFrame) (rest : List Nat),
          cA.readbuff initDecode decode buffB = some cB ∧
          c.readbuff initDecode decode buffW = some cW ∧
          cB.input = c.input ++ fsA ++ fsB ∧ cW.input = c.input ++ fsA ++ fsB ∧
          cA.Leaves cB buffB rest ∧ c.Leaves cW buffW rest := by
  obtain ⟨fsA, kA, hdecA, hkA, hfsA⟩ := decodes_exists decode hprog a.length a (Nat.le_refl _)
  have hlenA := buffA.window_length hwfA
  rw [hA] at hlenA
  obtain ⟨cA, hreadA, hinputA, hinitA, _, hleavesA, _⟩ :=
    Connector.readbuff_decodes initDecode decode c buffA fsA kA hinit hwfA (hA ▸ hdecA)
      (by omega) (by omega)
  rw [hA] at hleavesA
  refine ⟨cA, fsA, a.drop kA, hreadA, hinputA, hleavesA, ?_⟩
  intro buffB hwfB hB
  obtain ⟨fsB, kB, hdecB, hkB, hfsB⟩ :=
    decodes_exists decode hprog (a.drop kA ++ b).length _ (Nat.le_refl _)
  have hlenB := buffB.window_length hwfB
  rw [hB] at hlenB
  obtain ⟨cB, hreadB, hinputB, _, _, hleavesB, _⟩ :=
    Connector.readbuff_decodes initDecode decode cA buffB fsB kB hinitA hwfB (hB ▸ hdecB)
      (by omega) (by omega)
  have hdecW := decodes_append decode hprog hstable b hdecA hdecB
  have hlenW := buffW.window_length hwfW
  rw [hW] at hlenW
  have hlens : (a.drop kA ++ b).length = a.length - kA + b.length := by
    rw [List.length_append, List.length_drop]
  have hlenab : (a ++ b).length = a.length + b.length := List.length_append _ _
  obtain ⟨cW, hreadW, hinputW, _, _, hleavesW, _⟩ :=
    Connector.readbuff_decodes initDecode decode c buffW (fsA ++ fsB) (kA + kB) hinit hwfW
      (hW ▸ hdecW) (by omega) (by rw [List.length_append]; omega)
  have hrest : buffW.window.drop (kA + kB) = buffB.window.drop kB := by
    have h1 : (a ++ b).drop kA = a.drop kA ++ b := List.drop_append_of_le_length hkA
    rw [hW, hB, ← h1, List.drop_drop, Nat.add_comm]
  rw [hrest] at hleavesW
  refine ⟨cB, cW, fsB, buffB.window.drop kB, hreadB, hreadW, ?_, ?_, hleavesB, hleavesW⟩
  · rw [hinputB, hinputA]
  · rw [hinputW, List.append_assoc]

theorem lengthDecode_progress (x : List Nat) (f : AMQFrame) (n : Nat)
    (h : lengthDecode x = some (f, n)) : 0 < n ∧ n ≤ x.length := by
  match x, h with
  | m :: e :: rest, h =>
    simp only [lengthDecode] at h
    split at h
    · rename_i hc
      simp only [Option.some.injEq, Prod.mk.injEq] at h
      obtain ⟨_, rfl⟩ := h
      simp only [List.length_cons]
      omega
    · cases h
  | [], h => simp [lengthDecode] at h
  | [_], h => simp [lengthDecode] at h

theorem lengthDecode_stable (x y : List Nat) (f : AMQFrame) (n : Nat)
    (h : lengthDecode x = some (f, n)) : lengthDecode (x ++ y) = some (f, n) := by
  match x, h with
  | m :: e :: rest, h =>
    simp only [lengthDecode] at h
    split at h
    · rename_i hc
      simp only [Option.some.injEq, Prod.mk.injEq] at h
      obtain ⟨rfl, rfl⟩ := h
      have hc' : 2 ≤ m ∧ m - 2 ≤ (rest ++ y).length := by
        rw [List.length_append]
        omega
      simp only [List.cons_append, lengthDecode, hc', and_self, if_true]
      rw [List.take_append_of_le_length hc.2]
    · cases h
  | [], h => simp [lengthDecode] at h
  | [_], h => simp [lengthDecode] at h

/-- Witness of C5: the bytes of two complete frames and of a 4-byte frame,
split in the middle of the last frame. -/
theorem readbuff_resumes_as_one_unit_witness :
    ∃ (cA : Connector) (fsA : List AMQFrame) (restA : List Nat),
      Connector.readbuff (fun _ => none) lengthDecode { openConnector with initiated := true }
        firstBuffer = some cA ∧
      cA.input = ({ openConnector with initiated := true } : Connector).input ++ fsA ∧
      Connector.Leaves { openConnector with initiated := true } cA firstBuffer restA ∧
      ∀ buffB : BufferBase, buffB.dataStart + buffB.dataCount ≤ buffB.byteCount →
        buffB.window = restA ++ [5, 6] →
        ∃ (cB cW : Connector) (fsB : List AMQFrame) (rest : List Nat),
          cA.readbuff (fun _ => none) lengthDecode buffB = some cB ∧
          Connector.readbuff (fun _ => none) lengthDecode
            { openConnector with initiated := true } wholeBuffer = some cW ∧
          cB.input = ({ openConnector with initiated := true } : Connector).input ++ fsA ++ fsB ∧
          cW.input = ({ openConnector with initiated := true } : Connector).input ++ fsA ++ fsB ∧
          cA.Leaves cB buffB rest ∧
          Connector.Leaves { openConnector with initiated := true } cW wholeBuffer rest :=
  readbuff_resumes_as_one_unit (fun _ => none) lengthDecode
    { openConnector with initiated := true } firstBuffer wholeBuffer [3, 0, 9, 2, 1, 4, 0] [5, 6]
    rfl lengthDecode_progress lengthDecode_stable (by decide) (by decide) (by decide) (by decide)


end Qpid
